import Mathlib

/-!
# A shallow embedding of the `consistenthash` Go package

This file embeds the hash-ring implementation of the repository (the mature
variant with the `nodeToVnode` dual index) into Lean and proves properties of
its operations.

Modelling conventions:

* `uint32` values are `Nat`s, with every operation that can wrap reduced
  modulo `2 ^ 32` exactly where the Go code performs 32-bit arithmetic.
* Go maps are association lists whose iteration order is the insertion order;
  this is a deterministic refinement of Go's unspecified map iteration order.
  Map writes of a fresh key append at the end, writes of an existing key
  replace its binding in place, deletes remove the binding.
* `sort.Sort` sorts the position slice ascending; it is modelled by insertion
  sort (all ring states keep the slice duplicate-free, so every correct sort
  produces the same list).
* Fallible operations return the untouched-or-updated receiver state paired
  with an optional error, mirroring a Go method that mutates its receiver and
  returns an `error`.
-/

namespace ConsistentHash

/-- `2 ^ 32`, the size of the `uint32` value space. -/
def U32 : Nat := 2 ^ 32

/-! ## Association lists standing in for Go maps -/

/-- Go map read `v, ok := l[k]` (`some` iff the key is present). -/
def alookup {κ ν : Type} [DecidableEq κ] : List (κ × ν) → κ → Option ν
  | [], _ => none
  | e :: t, k => if e.1 = k then some e.2 else alookup t k

/-- Go map write `l[k] = v`: replace the binding if the key is present,
append it otherwise. -/
def aupdate {κ ν : Type} [DecidableEq κ] : List (κ × ν) → κ → ν → List (κ × ν)
  | [], k, v => [(k, v)]
  | e :: t, k, v => if e.1 = k then (k, v) :: t else e :: aupdate t k v

/-- Go map delete `delete(l, k)`. -/
def aerase {κ ν : Type} [DecidableEq κ] : List (κ × ν) → κ → List (κ × ν)
  | [], _ => []
  | e :: t, k => if e.1 = k then aerase t k else e :: aerase t k

/-- The keys of a Go map, in iteration order. -/
def akeys {κ ν : Type} (l : List (κ × ν)) : List κ := l.map Prod.fst

/-! ## The data model of `consistenthash.go` -/

/-- `type Hash32 func(data []byte) uint32`; byte slices of UTF-8 strings are
identified with the strings themselves. -/
abbrev Hash32 : Type := String → Nat

/-- `limitVNodes = 0x1 << 30`, the virtual-node safety ceiling. -/
def limitVNodes : Nat := 2 ^ 30

/-- `miniReplicas uint16 = 2`. -/
def miniReplicas : Nat := 2

/-- `defaultReplicas uint16 = 128`. -/
def defaultReplicas : Nat := 128

/-- Modelled from the spec: the default hash is Go's `crc32.ChecksumIEEE`, an
external standard-library dependency that is not part of this repository's
sources.  The spec treats every hash as an opaque capability
`hash(bytes) -> uint32`, so the default is modelled as a fixed but otherwise
arbitrary 32-bit string hash. -/
def crc32ChecksumIEEE : Hash32 := fun s =>
  s.foldl (fun h c => (h * 131 + c.toNat) % U32) 5381

/-- `type HashRing struct`: the ring state.  `vNodes` is the sorted slice of
virtual-node positions, `vnodeToNode` maps a position to its physical node,
`nodeToVnode` maps a physical node to the positions it owns. -/
structure HashRing where
  HashFunc : Hash32
  replicas : Nat
  vNodes : List Nat
  vnodeToNode : List (Nat × String)
  nodeToVnode : List (String × List Nat)

/-- The two error values `ErrRingEmpty` and `ErrRingFull`. -/
inductive RingErr
  | ringEmpty
  | ringFull
deriving DecidableEq, Repr

deriving instance DecidableEq for Except

/-- `func New(replicas uint16, hash Hash32) *HashRing`; a `nil` hash argument
is `none`. -/
def New (replicas : Nat) (hash : Option Hash32) : HashRing :=
  { HashFunc := match hash with | some f => f | none => crc32ChecksumIEEE
    replicas := if replicas < miniReplicas then defaultReplicas else replicas
    vNodes := []
    vnodeToNode := []
    nodeToVnode := [] }

/-- `func numHash(key, max uint32) uint32`: the multiplicative fold
`(key * 16777619) % max`, the product taken in `uint32` (it may wrap). -/
def numHash (key mx : Nat) : Nat := key * 16777619 % U32 % mx

/-- `func combKey(node string, idx int) string`. -/
def combKey (node : String) (idx : Nat) : String := toString idx ++ node

/-- `segmentLen := uint32(math.MaxUint32 / int(m.replicas))` computed in
`add`. -/
def segmentLen (replicas : Nat) : Nat := (U32 - 1) / replicas

/-- The first candidate position computed for virtual-node index `ui` of
`node`: `segmentStart + numHash(HashFunc(combKey(node, ui)), segmentLen)` in
`uint32` arithmetic. -/
def cand (f : Hash32) (replicas : Nat) (node : String) (ui : Nat) : Nat :=
  (segmentLen replicas * ui % U32 + numHash (f (combKey node ui)) (segmentLen replicas)) % U32

/-- The collision-resolution ladder of `add` for one virtual node: take the
first candidate if its position is free, otherwise rehash `(position + 1)`
into the same segment up to two more times; `none` when all three candidate
positions are occupied. -/
def tryPos (ring : List (Nat × String)) (segStart segLen h : Nat) : Option Nat :=
  let p1 := (segStart + numHash h segLen) % U32
  if (alookup ring p1).isSome then
    let p2 := (segStart + numHash ((p1 + 1) % U32) segLen) % U32
    if (alookup ring p2).isSome then
      let p3 := (segStart + numHash ((p2 + 1) % U32) segLen) % U32
      if (alookup ring p3).isSome then none else some p3
    else some p2
  else some p1

/-- One iteration of the inner loop of `add`: place virtual-node index `ui`
of `node`, or leave the state unchanged when all three candidates collide. -/
def HashRing.addVNode (m : HashRing) (node : String) (ui : Nat) : HashRing :=
  let sl := segmentLen m.replicas
  match tryPos m.vnodeToNode (sl * ui % U32) sl (m.HashFunc (combKey node ui)) with
  | none => m
  | some p =>
    { m with vnodeToNode := m.vnodeToNode ++ [(p, node)]
             vNodes := m.vNodes ++ [p]
             nodeToVnode := aupdate m.nodeToVnode node ((alookup m.nodeToVnode node).getD [] ++ [p]) }

/-- The per-node body of `add`: skip a node that is already a member,
otherwise register it in `nodeToVnode` and place its `replicas` virtual
nodes. -/
def HashRing.addNode (m : HashRing) (node : String) : HashRing :=
  if (alookup m.nodeToVnode node).isSome then m
  else
    (List.range m.replicas).foldl (fun acc ui => acc.addVNode node ui)
      { m with nodeToVnode := m.nodeToVnode ++ [(node, [])] }

/-- `sort.Sort(m.vNodes)`: reorder the position slice ascending. -/
def sortPos (l : List Nat) : List Nat := List.insertionSort (· ≤ ·) l

/-- `func (m *HashRing) add(doSort bool, nodes ...string)`. -/
def HashRing.add (m : HashRing) (doSort : Bool) (nodes : List String) : HashRing :=
  if nodes.isEmpty then m
  else
    let m1 := nodes.foldl HashRing.addNode m
    if doSort then { m1 with vNodes := sortPos m1.vNodes } else m1

/-- `func (m *HashRing) Add(nodes ...string) error`. -/
def HashRing.Add (m : HashRing) (nodes : List String) : HashRing × Option RingErr :=
  if m.vnodeToNode.length + nodes.length * m.replicas > limitVNodes then
    (m, some RingErr.ringFull)
  else (m.add true nodes, none)

/-- The per-node body of `remove`: drop all virtual nodes owned by `node` and
unregister it; a non-member is skipped. -/
def HashRing.removeNode (m : HashRing) (node : String) : HashRing :=
  match alookup m.nodeToVnode node with
  | none => m
  | some ps =>
    { m with vnodeToNode := ps.foldl (fun r p => aerase r p) m.vnodeToNode
             nodeToVnode := aerase m.nodeToVnode node }

/-- `func (m *HashRing) rebuildVNodeSlice(doSort bool)`. -/
def HashRing.rebuildVNodeSlice (m : HashRing) (doSort : Bool) : HashRing :=
  { m with vNodes := if doSort then sortPos (akeys m.vnodeToNode) else akeys m.vnodeToNode }

/-- `func (m *HashRing) remove(doSort bool, nodes ...string)`. -/
def HashRing.remove (m : HashRing) (doSort : Bool) (nodes : List String) : HashRing :=
  if nodes.isEmpty then m
  else (nodes.foldl HashRing.removeNode m).rebuildVNodeSlice doSort

/-- `func (m *HashRing) Remove(nodes ...string)`. -/
def HashRing.Remove (m : HashRing) (nodes : List String) : HashRing :=
  m.remove true nodes

/-- The loop building the `resetNodes` set of `Reset`: insert each node once,
keeping first-occurrence order (the model's deterministic stand-in for Go map
iteration). -/
def dedupKeepGo (acc : List String) : List String → List String
  | [] => acc
  | n :: t => if n ∈ acc then dedupKeepGo acc t else dedupKeepGo (acc ++ [n]) t

/-- The deduplicated node list, standing in for the `resetNodes`
`map[string]` set built by `Reset`. -/
def dedupKeep (l : List String) : List String := dedupKeepGo [] l

/-- The nodes `Reset` removes: current members absent from the target set. -/
def HashRing.delNodes (m : HashRing) (nodes : List String) : List String :=
  (akeys m.nodeToVnode).filter fun n => decide (n ∉ nodes)

/-- The nodes `Reset` adds: target-set members (in `resetNodes` iteration
order) not currently on the ring. -/
def HashRing.addNodesOf (m1 : HashRing) (nodes : List String) : List String :=
  (dedupKeep nodes).filter fun n => (alookup m1.nodeToVnode n).isNone

/-- `func (m *HashRing) Reset(nodes ...string) error`. -/
def HashRing.Reset (m : HashRing) (nodes : List String) : HashRing × Option RingErr :=
  if nodes.length * m.replicas > limitVNodes then (m, some RingErr.ringFull)
  else
    let del := m.delNodes nodes
    let m1 := m.remove false del
    let adds := m1.addNodesOf nodes
    let m2 := m1.add false adds
    (if del.isEmpty && adds.isEmpty then m2 else { m2 with vNodes := sortPos m2.vNodes },
     none)

/-- `func (m *HashRing) clear()`. -/
def HashRing.clear (_m : HashRing) : HashRing :=
  { HashFunc := crc32ChecksumIEEE
    replicas := defaultReplicas
    vNodes := []
    vnodeToNode := []
    nodeToVnode := [] }

/-- The configuration step of `ResetAll`: adopt the new replica count when it
is at least `miniReplicas`, adopt the new hash function when it is not
`nil`. -/
def HashRing.applyConfig (m : HashRing) (replicas : Nat) (hash : Option Hash32) : HashRing :=
  let m1 := if miniReplicas ≤ replicas then { m with replicas := replicas } else m
  match hash with
  | some f => { m1 with HashFunc := f }
  | none => m1

/-- `func (m *HashRing) ResetAll(replicas uint16, hash Hash32, nodes ...string) error`.
Note the source clears the ring and applies the new configuration before the
capacity check. -/
def HashRing.ResetAll (m : HashRing) (replicas : Nat) (hash : Option Hash32)
    (nodes : List String) : HashRing × Option RingErr :=
  let m2 := m.clear.applyConfig replicas hash
  if nodes.length * m2.replicas > limitVNodes then (m2, some RingErr.ringFull)
  else (m2.add true nodes, none)

/-- The loop of Go's `sort.Search(n, f)`: binary search on the interval
`[i, j)` for the smallest index at which `f` holds (`j` when `f` holds
nowhere in the interval), assuming `f` monotone.  The `gas` argument only
bounds the number of iterations structurally; `j - i` iterations always
suffice, since the interval shrinks at every step. -/
def searchGo (f : Nat → Bool) : Nat → Nat → Nat → Nat
  | 0, i, _ => i
  | gas + 1, i, j =>
    if i < j then
      let mid := (i + j) / 2
      if f mid then searchGo f gas i mid else searchGo f gas (mid + 1) j
    else i

/-- Go's `sort.Search(n, f)` loop on the interval `[i, j)`. -/
def searchLoop (f : Nat → Bool) (i j : Nat) : Nat := searchGo f (j - i) i j

/-- `sort.Search(len(vNodes), func(i int) bool)` as called by `Get`. -/
def goSearch (n : Nat) (f : Nat → Bool) : Nat := searchLoop f 0 n

/-- `func (m *HashRing) Get(key string) (string, error)`. -/
def HashRing.Get (m : HashRing) (key : String) : Except RingErr String :=
  if m.vnodeToNode.length = 0 then Except.error RingErr.ringEmpty
  else
    let u32Hash := m.HashFunc key
    let idx := goSearch m.vNodes.length fun i => decide (u32Hash ≤ m.vNodes.getD i 0)
    let idx1 := if idx = m.vNodes.length then 0 else idx
    Except.ok ((alookup m.vnodeToNode (m.vNodes.getD idx1 0)).getD "")

/-! ## Lemmas about the association-list map operations -/

section AListLemmas

set_option linter.unusedSectionVars false

variable {κ ν : Type} [DecidableEq κ]

@[simp] theorem akeys_nil : akeys ([] : List (κ × ν)) = [] := rfl

@[simp] theorem akeys_cons (e : κ × ν) (t : List (κ × ν)) :
    akeys (e :: t) = e.1 :: akeys t := rfl

@[simp] theorem akeys_append (l r : List (κ × ν)) :
    akeys (l ++ r) = akeys l ++ akeys r := by
  simp [akeys]

@[simp] theorem alookup_nil (k : κ) : alookup ([] : List (κ × ν)) k = none := rfl

theorem alookup_cons (e : κ × ν) (t : List (κ × ν)) (k : κ) :
    alookup (e :: t) k = if e.1 = k then some e.2 else alookup t k := rfl

theorem alookup_isSome_iff {l : List (κ × ν)} {k : κ} :
    (alookup l k).isSome ↔ k ∈ akeys l := by
  induction l with
  | nil => simp
  | cons e t ih =>
    rw [alookup_cons]
    by_cases h : e.1 = k
    · simp [h]
    · simp [h, ih, Ne.symm h]

theorem alookup_eq_none_iff {l : List (κ × ν)} {k : κ} :
    alookup l k = none ↔ k ∉ akeys l := by
  rw [← alookup_isSome_iff, Option.isSome_iff_ne_none]
  tauto

theorem alookup_mem {l : List (κ × ν)} {k : κ} {v : ν} (h : alookup l k = some v) :
    (k, v) ∈ l := by
  induction l with
  | nil => simp at h
  | cons e t ih =>
    rw [alookup_cons] at h
    by_cases he : e.1 = k
    · rw [if_pos he] at h
      injection h with h2
      have he2 : e = (k, v) := by
        obtain ⟨a, b⟩ := e
        simp only [Prod.mk.injEq]
        exact ⟨he, h2⟩
      rw [← he2]
      exact List.mem_cons_self _ _
    · rw [if_neg he] at h
      exact List.mem_cons_of_mem _ (ih h)

theorem mem_akeys_of_mem {l : List (κ × ν)} {e : κ × ν} (h : e ∈ l) : e.1 ∈ akeys l :=
  List.mem_map_of_mem Prod.fst h

theorem alookup_of_mem {l : List (κ × ν)} {k : κ} {v : ν}
    (hnd : (akeys l).Nodup) (h : (k, v) ∈ l) : alookup l k = some v := by
  induction l with
  | nil => simp at h
  | cons e t ih =>
    simp only [akeys_cons, List.nodup_cons] at hnd
    obtain ⟨hne, hnd⟩ := hnd
    rcases List.mem_cons.mp h with he | h
    · rw [← he]
      simp [alookup_cons]
    · rw [alookup_cons]
      have hk : k ∈ akeys t := mem_akeys_of_mem h
      have hek : e.1 ≠ k := fun he => hne (he ▸ hk)
      rw [if_neg hek]
      exact ih hnd h

theorem alookup_append_left {l r : List (κ × ν)} {k : κ} (h : k ∈ akeys l) :
    alookup (l ++ r) k = alookup l k := by
  induction l with
  | nil => simp at h
  | cons e t ih =>
    rw [List.cons_append, alookup_cons, alookup_cons]
    by_cases he : e.1 = k
    · simp [he]
    · rw [if_neg he, if_neg he]
      exact ih (by simpa [Ne.symm he] using h)

theorem alookup_append_right {l r : List (κ × ν)} {k : κ} (h : k ∉ akeys l) :
    alookup (l ++ r) k = alookup r k := by
  induction l with
  | nil => simp
  | cons e t ih =>
    rw [List.cons_append, alookup_cons]
    have he : e.1 ≠ k := by rintro rfl; exact h (by simp)
    rw [if_neg he]
    exact ih fun hk => h (by simp [hk])

@[simp] theorem aerase_nil (k : κ) : aerase ([] : List (κ × ν)) k = [] := rfl

theorem aerase_cons (e : κ × ν) (t : List (κ × ν)) (k : κ) :
    aerase (e :: t) k = if e.1 = k then aerase t k else e :: aerase t k := rfl

theorem akeys_aerase (l : List (κ × ν)) (k : κ) :
    akeys (aerase l k) = (akeys l).filter fun x => decide (x ≠ k) := by
  induction l with
  | nil => rfl
  | cons e t ih =>
    rw [aerase_cons]
    by_cases he : e.1 = k
    · simp [he, ih, List.filter_cons]
    · simp [he, ih, List.filter_cons]

theorem mem_of_mem_aerase {l : List (κ × ν)} {k : κ} {e : κ × ν}
    (h : e ∈ aerase l k) : e ∈ l := by
  induction l with
  | nil => simp at h
  | cons f t ih =>
    rw [aerase_cons] at h
    by_cases hf : f.1 = k
    · rw [if_pos hf] at h
      exact List.mem_cons_of_mem _ (ih h)
    · rw [if_neg hf] at h
      rcases List.mem_cons.mp h with he | h
      · exact he ▸ List.mem_cons_self _ _
      · exact List.mem_cons_of_mem _ (ih h)

theorem alookup_aerase_self (l : List (κ × ν)) (k : κ) :
    alookup (aerase l k) k = none := by
  rw [alookup_eq_none_iff, akeys_aerase]
  intro h
  have := List.of_mem_filter h
  simp at this

theorem alookup_aerase_ne (l : List (κ × ν)) {k q : κ} (h : q ≠ k) :
    alookup (aerase l k) q = alookup l q := by
  induction l with
  | nil => rfl
  | cons e t ih =>
    rw [aerase_cons]
    by_cases he : e.1 = k
    · rw [if_pos he, alookup_cons, if_neg (he.symm ▸ fun hq => h hq.symm), ih]
    · rw [if_neg he, alookup_cons, alookup_cons, ih]

@[simp] theorem aupdate_nil (k : κ) (v : ν) :
    aupdate ([] : List (κ × ν)) k v = [(k, v)] := rfl

theorem aupdate_cons (e : κ × ν) (t : List (κ × ν)) (k : κ) (v : ν) :
    aupdate (e :: t) k v = if e.1 = k then (k, v) :: t else e :: aupdate t k v := rfl

theorem akeys_aupdate_of_mem {l : List (κ × ν)} {k : κ} (v : ν) (h : k ∈ akeys l) :
    akeys (aupdate l k v) = akeys l := by
  induction l with
  | nil => simp at h
  | cons e t ih =>
    rw [aupdate_cons]
    by_cases he : e.1 = k
    · simp [he]
    · rw [if_neg he]
      simp only [akeys_cons]
      rw [ih (by simpa [Ne.symm he] using h)]

theorem alookup_aupdate_self (l : List (κ × ν)) (k : κ) (v : ν) :
    alookup (aupdate l k v) k = some v := by
  induction l with
  | nil => simp [alookup_cons]
  | cons e t ih =>
    rw [aupdate_cons]
    by_cases he : e.1 = k
    · rw [if_pos he]
      simp [alookup_cons]
    · rw [if_neg he, alookup_cons, if_neg he]
      exact ih

theorem alookup_aupdate_ne (l : List (κ × ν)) {k q : κ} (v : ν) (h : q ≠ k) :
    alookup (aupdate l k v) q = alookup l q := by
  induction l with
  | nil => simp [alookup_cons, Ne.symm h]
  | cons e t ih =>
    rw [aupdate_cons]
    by_cases he : e.1 = k
    · have hk : k ≠ q := fun hk => h hk.symm
      rw [if_pos he, alookup_cons, alookup_cons, if_neg hk,
        if_neg (fun hq : e.1 = q => hk (he.symm.trans hq))]
    · rw [if_neg he, alookup_cons, alookup_cons, ih]

theorem mem_aupdate {l : List (κ × ν)} {k : κ} {v : ν} {e : κ × ν}
    (h : e ∈ aupdate l k v) : e ∈ l ∨ e = (k, v) := by
  induction l with
  | nil => simpa using h
  | cons f t ih =>
    rw [aupdate_cons] at h
    by_cases hf : f.1 = k
    · rw [if_pos hf] at h
      rcases List.mem_cons.mp h with he | h
      · right; exact he
      · left; exact List.mem_cons_of_mem _ h
    · rw [if_neg hf] at h
      rcases List.mem_cons.mp h with he | h
      · left; exact he ▸ List.mem_cons_self _ _
      · rcases ih h with h | h
        · left; exact List.mem_cons_of_mem _ h
        · right; exact h

end AListLemmas

/-! ## Specification of the binary search used by `Get` -/

/-- The search loop returns the least index at which `f` holds (or the upper
bound), provided `f` is monotone below `n` and the gas covers the interval
length. -/
theorem searchGo_spec (f : Nat → Bool) (n : Nat)
    (hmono : ∀ a b, a ≤ b → b < n → f a = true → f b = true) :
    ∀ (gas i j : Nat), j - i ≤ gas → j ≤ n → i ≤ j →
    i ≤ searchGo f gas i j ∧ searchGo f gas i j ≤ j ∧
    (searchGo f gas i j < j → f (searchGo f gas i j) = true) ∧
    (∀ k, i ≤ k → k < searchGo f gas i j → f k = false) := by
  intro gas
  induction gas with
  | zero =>
    intro i j hgas hjn hle
    have hij : i = j := by omega
    rw [searchGo]
    exact ⟨le_refl i, hle, fun h => absurd h (by omega), fun k hik hki => by omega⟩
  | succ gas ih =>
    intro i j hgas hjn hle
    rw [searchGo]
    by_cases hij : i < j
    · rw [if_pos hij]
      simp only []
      by_cases hf : f ((i + j) / 2) = true
      · rw [if_pos hf]
        have hmid : (i + j) / 2 < j := by omega
        have himid : i ≤ (i + j) / 2 := by omega
        obtain ⟨h1, h2, h3, h4⟩ := ih i ((i + j) / 2) (by omega) (by omega) himid
        refine ⟨h1, by omega, ?_, h4⟩
        intro _
        rcases Nat.lt_or_ge (searchGo f gas i ((i + j) / 2)) ((i + j) / 2) with hc | hc
        · exact h3 hc
        · have hceq : searchGo f gas i ((i + j) / 2) = (i + j) / 2 := by omega
          rw [hceq]
          exact hf
      · rw [if_neg hf]
        have hmid : (i + j) / 2 < j := by omega
        have himid : i ≤ (i + j) / 2 := by omega
        obtain ⟨h1, h2, h3, h4⟩ := ih ((i + j) / 2 + 1) j (by omega) hjn (by omega)
        refine ⟨by omega, h2, h3, ?_⟩
        intro k hik hkr
        rcases Nat.lt_or_ge k ((i + j) / 2 + 1) with hc | hc
        · by_cases hfk : f k = true
          · exact absurd (hmono k ((i + j) / 2) (by omega) (by omega) hfk) (by simpa using hf)
          · simpa using hfk
        · exact h4 k hc hkr
    · rw [if_neg hij]
      exact ⟨le_refl i, hle, fun h => absurd (by omega : i < j) hij, fun k hik hki => by omega⟩

/-- `sort.Search(n, f)` for monotone `f`: the result is at most `n`, `f`
holds at the result when it is below `n`, and `f` fails strictly below the
result. -/
theorem goSearch_spec (f : Nat → Bool) (n : Nat)
    (hmono : ∀ a b, a ≤ b → b < n → f a = true → f b = true) :
    goSearch n f ≤ n ∧ (goSearch n f < n → f (goSearch n f) = true) ∧
    (∀ k, k < goSearch n f → f k = false) := by
  obtain ⟨_, h2, h3, h4⟩ := searchGo_spec f n hmono (n - 0) 0 n (le_refl _) (le_refl n)
    (Nat.zero_le n)
  exact ⟨h2, h3, fun k hk => h4 k (Nat.zero_le k) hk⟩

/-! ## The sort pass -/

theorem sortPos_perm (l : List Nat) : (sortPos l).Perm l :=
  List.perm_insertionSort _ l

theorem sortPos_sorted (l : List Nat) : (sortPos l).Sorted (· ≤ ·) :=
  List.sorted_insertionSort _ l

theorem sortPos_eq_self {l : List Nat} (h : l.Sorted (· ≤ ·)) : sortPos l = l :=
  List.Sorted.insertionSort_eq h

theorem sortPos_sorted_lt {l : List Nat} (h : l.Nodup) : (sortPos l).Sorted (· < ·) := by
  have hs := sortPos_sorted l
  have hnd : (sortPos l).Nodup := ((sortPos_perm l).nodup_iff).mpr h
  rw [List.Sorted] at hs ⊢
  rw [List.pairwise_iff_get] at hs ⊢
  intro a b hab
  rcases Nat.lt_or_ge ((sortPos l).get a) ((sortPos l).get b) with hc | hc
  · exact hc
  · exact absurd (List.Nodup.get_inj_iff hnd |>.mp (le_antisymm (hs a b hab) hc))
      (Fin.ne_of_lt hab)

theorem sorted_lt_le {l : List Nat} (h : l.Sorted (· < ·)) : l.Sorted (· ≤ ·) :=
  h.imp le_of_lt

theorem sortPos_eq_of_perm {l l' : List Nat} (h : l.Perm l') : sortPos l = sortPos l' := by
  refine List.eq_of_perm_of_sorted ?_ (sortPos_sorted l) (sortPos_sorted l')
  exact ((sortPos_perm l).trans h).trans (sortPos_perm l').symm

/-! ## More association-list facts used by the invariant proofs -/

section AListLemmas2

set_option linter.unusedSectionVars false

variable {κ ν : Type} [DecidableEq κ]

theorem key_ne_of_mem_aerase {l : List (κ × ν)} {k : κ} {e : κ × ν}
    (h : e ∈ aerase l k) : e.1 ≠ k := by
  induction l with
  | nil => simp at h
  | cons f t ih =>
    rw [aerase_cons] at h
    by_cases hf : f.1 = k
    · rw [if_pos hf] at h
      exact ih h
    · rw [if_neg hf] at h
      rcases List.mem_cons.mp h with he | h
      · exact he ▸ hf
      · exact ih h

theorem akeys_nodup_aerase {l : List (κ × ν)} (k : κ) (h : (akeys l).Nodup) :
    (akeys (aerase l k)).Nodup := by
  rw [akeys_aerase]
  exact h.filter _

theorem alookup_foldl_aerase (ks : List κ) :
    ∀ (l : List (κ × ν)) (q : κ),
      alookup (ks.foldl (fun r p => aerase r p) l) q =
        if q ∈ ks then none else alookup l q := by
  induction ks with
  | nil =>
    intro l q
    simp
  | cons a t ih =>
    intro l q
    rw [List.foldl_cons, ih]
    by_cases hq : q ∈ t
    · simp [hq]
    · rw [if_neg hq]
      by_cases hqa : q = a
      · subst hqa
        simp [alookup_aerase_self]
      · rw [alookup_aerase_ne _ hqa, if_neg (by simp [hqa, hq])]

theorem mem_foldl_aerase {ks : List κ} :
    ∀ {l : List (κ × ν)} {e : κ × ν}, e ∈ ks.foldl (fun r p => aerase r p) l → e ∈ l := by
  induction ks with
  | nil =>
    intro l e h
    simpa using h
  | cons a t ih =>
    intro l e h
    exact mem_of_mem_aerase (ih h)

theorem akeys_nodup_foldl_aerase {ks : List κ} :
    ∀ {l : List (κ × ν)}, (akeys l).Nodup →
      (akeys (ks.foldl (fun r p => aerase r p) l)).Nodup := by
  induction ks with
  | nil =>
    intro l h
    simpa using h
  | cons a t ih =>
    intro l h
    exact ih (akeys_nodup_aerase a h)

theorem alookup_of_akeys_mem {l : List (κ × ν)} {k : κ} (h : k ∈ akeys l) :
    ∃ v, alookup l k = some v := by
  have := alookup_isSome_iff.mpr h
  exact Option.isSome_iff_exists.mp this

end AListLemmas2

/-! ## The ring invariant -/

/-- Mutual consistency of the two maps: unique keys on both sides, every
owned position maps back to its owner, every ring position is recorded under
its owner, and no node owns more than `replicas` positions. -/
def WFmaps (m : HashRing) : Prop :=
  (akeys m.nodeToVnode).Nodup ∧
  (akeys m.vnodeToNode).Nodup ∧
  (∀ e ∈ m.nodeToVnode, ∀ p ∈ e.2, alookup m.vnodeToNode p = some e.1) ∧
  (∀ e ∈ m.vnodeToNode, e.1 ∈ (alookup m.nodeToVnode e.2).getD []) ∧
  (∀ e ∈ m.nodeToVnode, e.2.length ≤ m.replicas)

/-- Consistency of the position slice with the position map: same elements,
same length, no duplicates. -/
def WFvn (m : HashRing) : Prop :=
  (∀ p ∈ m.vNodes, p ∈ akeys m.vnodeToNode) ∧
  (∀ p ∈ akeys m.vnodeToNode, p ∈ m.vNodes) ∧
  m.vNodes.length = m.vnodeToNode.length ∧
  m.vNodes.Nodup

/-- The replica count stays in the range enforced by the `uint16` type and
the `miniReplicas` correction. -/
def WFr (m : HashRing) : Prop := miniReplicas ≤ m.replicas ∧ m.replicas < 65536

/-- The invariant that holds between the batched mutation and its final sort
pass: everything except sortedness of the position slice. -/
def WF0 (m : HashRing) : Prop := WFr m ∧ WFmaps m ∧ WFvn m

/-- The full invariant of a ring at rest. -/
def WF (m : HashRing) : Prop := WF0 m ∧ m.vNodes.Sorted (· < ·)

theorem WF.toWF0 {m : HashRing} (h : WF m) : WF0 m := h.1

/-! ## Preservation of the invariant by `add` -/

/-- A position returned by the collision ladder is free, and has the shape
`segmentStart + numHash _ segmentLen` (in `uint32` arithmetic). -/
theorem tryPos_some {ring : List (Nat × String)} {s l h p : Nat}
    (hp : tryPos ring s l h = some p) :
    alookup ring p = none ∧ ∃ x, p = (s + numHash x l) % U32 := by
  simp only [tryPos] at hp
  split at hp
  · split at hp
    · split at hp
      · exact absurd hp (by simp)
      · next h3 =>
        injection hp with hpe
        exact ⟨hpe ▸ Option.not_isSome_iff_eq_none.mp h3, _, hpe.symm⟩
    · next h2 =>
      injection hp with hpe
      exact ⟨hpe ▸ Option.not_isSome_iff_eq_none.mp h2, _, hpe.symm⟩
  · next h1 =>
    injection hp with hpe
    exact ⟨hpe ▸ Option.not_isSome_iff_eq_none.mp h1, _, hpe.symm⟩

/-- One `addVNode` step keeps the unsorted invariant, does not touch the
configuration, and grows the node's position list by at most one. -/
theorem addVNode_wf {m : HashRing} {node : String} {ps : List Nat} (ui : Nat)
    (hwf : WF0 m) (hmem : alookup m.nodeToVnode node = some ps)
    (hlen : ps.length < m.replicas) :
    WF0 (m.addVNode node ui) ∧
    (m.addVNode node ui).replicas = m.replicas ∧
    (m.addVNode node ui).HashFunc = m.HashFunc ∧
    ∃ qs : List Nat, alookup (m.addVNode node ui).nodeToVnode node = some qs ∧
      qs.length ≤ ps.length + 1 := by
  obtain ⟨hr, ⟨hnk, hvk, hto, hfrom, hlenb⟩, hv1, hv2, hv3, hv4⟩ := hwf
  simp only [HashRing.addVNode]
  cases htp : tryPos m.vnodeToNode (segmentLen m.replicas * ui % U32) (segmentLen m.replicas)
      (m.HashFunc (combKey node ui)) with
  | none =>
    exact ⟨⟨hr, ⟨hnk, hvk, hto, hfrom, hlenb⟩, hv1, hv2, hv3, hv4⟩, rfl, rfl, ps, hmem,
      Nat.le_succ _⟩
  | some p =>
    obtain ⟨hfresh, -⟩ := tryPos_some htp
    have hpk : p ∉ akeys m.vnodeToNode := alookup_eq_none_iff.mp hfresh
    have hnode_mem : node ∈ akeys m.nodeToVnode :=
      alookup_isSome_iff.mp (by simp [hmem])
    have hgetD : (alookup m.nodeToVnode node).getD [] = ps := by simp [hmem]
    rw [hgetD]
    refine ⟨⟨hr, ⟨?_, ?_, ?_, ?_, ?_⟩, ?_, ?_, ?_, ?_⟩, rfl, rfl, ps ++ [p], ?_, ?_⟩
    · rw [akeys_aupdate_of_mem _ hnode_mem]
      exact hnk
    · rw [akeys_append]
      rw [List.nodup_append]
      refine ⟨hvk, by simp, ?_⟩
      intro a ha hb
      simp only [akeys_cons, akeys_nil, List.mem_singleton] at hb
      exact hpk (hb ▸ ha)
    · intro e he q hq
      rcases mem_aupdate he with he' | he'
      · have h1 := hto e he' q hq
        rw [alookup_append_left (alookup_isSome_iff.mp (by simp [h1]))]
        exact h1
      · subst he'
        rcases List.mem_append.mp hq with hq' | hq'
        · have h1 := hto (node, ps) (alookup_mem hmem) q hq'
          rw [alookup_append_left (alookup_isSome_iff.mp (by simp [h1]))]
          exact h1
        · have hqp : q = p := by simpa using hq'
          subst hqp
          rw [alookup_append_right hpk]
          simp [alookup_cons]
    · intro e he
      rcases List.mem_append.mp he with he' | he'
      · have h1 := hfrom e he'
        by_cases hne : e.2 = node
        · rw [hne, alookup_aupdate_self]
          rw [hne, hmem] at h1
          simp only [Option.getD_some] at h1 ⊢
          exact List.mem_append_left _ h1
        · rw [alookup_aupdate_ne _ _ hne]
          exact h1
      · have he2 : e = (p, node) := by simpa using he'
        subst he2
        rw [alookup_aupdate_self]
        simp
    · intro e he
      rcases mem_aupdate he with he' | he'
      · exact hlenb e he'
      · rw [he']
        simpa using hlen
    · intro q hq
      rcases List.mem_append.mp hq with hq' | hq'
      · rw [akeys_append]
        exact List.mem_append_left _ (hv1 q hq')
      · rw [akeys_append]
        refine List.mem_append_right _ ?_
        simpa using hq'
    · intro q hq
      rw [akeys_append] at hq
      rcases List.mem_append.mp hq with hq' | hq'
      · exact List.mem_append_left _ (hv2 q hq')
      · refine List.mem_append_right _ ?_
        simpa using hq'
    · simp [hv3]
    · rw [List.nodup_append]
      refine ⟨hv4, by simp, ?_⟩
      intro a ha hb
      simp only [List.mem_singleton] at hb
      exact hpk (hb ▸ (hv1 a ha))
    · rw [alookup_aupdate_self]
    · simp

/-- The inner loop of `add` keeps the unsorted invariant as long as the
node's position list has room for the remaining indices. -/
theorem addVNode_fold_wf (node : String) (is : List Nat) :
    ∀ (m : HashRing) (ps : List Nat),
      WF0 m → alookup m.nodeToVnode node = some ps →
      ps.length + is.length ≤ m.replicas →
      WF0 (is.foldl (fun acc ui => acc.addVNode node ui) m) ∧
      (is.foldl (fun acc ui => acc.addVNode node ui) m).replicas = m.replicas ∧
      (is.foldl (fun acc ui => acc.addVNode node ui) m).HashFunc = m.HashFunc := by
  induction is with
  | nil =>
    intro m ps hwf hmem hlen
    exact ⟨hwf, rfl, rfl⟩
  | cons a t ih =>
    intro m ps hwf hmem hlen
    rw [List.foldl_cons]
    have hlt : ps.length < m.replicas := by
      simp only [List.length_cons] at hlen
      omega
    obtain ⟨hwf', hrep, hhf, qs, hqs, hql⟩ := addVNode_wf a hwf hmem hlt
    obtain ⟨h1, h2, h3⟩ := ih (m.addVNode node a) qs hwf' hqs (by
      rw [hrep]
      simp only [List.length_cons] at hlen
      omega)
    exact ⟨h1, by rw [h2, hrep], by rw [h3, hhf]⟩

/-- `addNode` keeps the unsorted invariant and the configuration. -/
theorem addNode_wf {m : HashRing} (node : String) (hwf : WF0 m) :
    WF0 (m.addNode node) ∧ (m.addNode node).replicas = m.replicas ∧
    (m.addNode node).HashFunc = m.HashFunc := by
  unfold HashRing.addNode
  by_cases hmem : (alookup m.nodeToVnode node).isSome
  · rw [if_pos hmem]
    exact ⟨hwf, rfl, rfl⟩
  · rw [if_neg hmem]
    obtain ⟨hr, ⟨hnk, hvk, hto, hfrom, hlenb⟩, hv1, hv2, hv3, hv4⟩ := hwf
    have hnmem : node ∉ akeys m.nodeToVnode := fun h => hmem (alookup_isSome_iff.mpr h)
    have hwf1 : WF0 { m with nodeToVnode := m.nodeToVnode ++ [(node, [])] } := by
      refine ⟨hr, ⟨?_, hvk, ?_, ?_, ?_⟩, hv1, hv2, hv3, hv4⟩
      · rw [akeys_append, List.nodup_append]
        refine ⟨hnk, by simp, ?_⟩
        intro a ha hb
        simp only [akeys_cons, akeys_nil, List.mem_singleton] at hb
        exact hnmem (hb ▸ ha)
      · intro e he q hq
        rcases List.mem_append.mp he with he' | he'
        · exact hto e he' q hq
        · have he2 : e = (node, []) := by simpa using he'
          rw [he2] at hq
          simp at hq
      · intro e he
        have h1 := hfrom e he
        by_cases hs : (alookup m.nodeToVnode e.2).isSome
        · rw [alookup_append_left (alookup_isSome_iff.mp hs)]
          exact h1
        · rw [Option.not_isSome_iff_eq_none] at hs
          rw [hs] at h1
          simp at h1
      · intro e he
        rcases List.mem_append.mp he with he' | he'
        · exact hlenb e he'
        · have he2 : e = (node, []) := by simpa using he'
          rw [he2]
          simp
    have hmem1 : alookup ({ m with nodeToVnode := m.nodeToVnode ++ [(node, []) ] }).nodeToVnode node = some [] := by
      simp only []
      rw [alookup_append_right hnmem]
      simp [alookup_cons]
    obtain ⟨h1, h2, h3⟩ := addVNode_fold_wf node (List.range m.replicas) _ [] hwf1 hmem1
      (by simp)
    exact ⟨h1, h2, h3⟩

/-- The per-node fold of `add` keeps the unsorted invariant and the
configuration. -/
theorem foldl_addNode_wf (nodes : List String) :
    ∀ m : HashRing, WF0 m →
      WF0 (nodes.foldl HashRing.addNode m) ∧
      (nodes.foldl HashRing.addNode m).replicas = m.replicas ∧
      (nodes.foldl HashRing.addNode m).HashFunc = m.HashFunc := by
  induction nodes with
  | nil =>
    intro m hwf
    exact ⟨hwf, rfl, rfl⟩
  | cons a t ih =>
    intro m hwf
    rw [List.foldl_cons]
    obtain ⟨h1, h2, h3⟩ := addNode_wf a hwf
    obtain ⟨g1, g2, g3⟩ := ih (m.addNode a) h1
    exact ⟨g1, by rw [g2, h2], by rw [g3, h3]⟩

/-- Replacing the position slice by its sorted reordering turns the unsorted
invariant into the full one. -/
theorem wf0_sortPos {m : HashRing} (hwf : WF0 m) :
    WF { m with vNodes := sortPos m.vNodes } := by
  obtain ⟨hr, hmaps, hv1, hv2, hv3, hv4⟩ := hwf
  have hperm := sortPos_perm m.vNodes
  refine ⟨⟨hr, hmaps, ?_, ?_, ?_, ?_⟩, ?_⟩
  · intro p hp
    exact hv1 p (hperm.mem_iff.mp hp)
  · intro p hp
    exact hperm.mem_iff.mpr (hv2 p hp)
  · rw [hperm.length_eq]
    exact hv3
  · exact hperm.nodup_iff.mpr hv4
  · exact sortPos_sorted_lt hv4

/-- `add` with either sort flag keeps the unsorted invariant and the
configuration. -/
theorem add_wf0 {m : HashRing} (doSort : Bool) (nodes : List String) (hwf : WF0 m) :
    WF0 (m.add doSort nodes) ∧ (m.add doSort nodes).replicas = m.replicas ∧
    (m.add doSort nodes).HashFunc = m.HashFunc := by
  unfold HashRing.add
  by_cases he : nodes.isEmpty
  · rw [if_pos he]
    exact ⟨hwf, rfl, rfl⟩
  · rw [if_neg he]
    obtain ⟨h1, h2, h3⟩ := foldl_addNode_wf nodes m hwf
    cases doSort with
    | false => exact ⟨h1, h2, h3⟩
    | true =>
      refine ⟨?_, h2, h3⟩
      exact (wf0_sortPos h1).1

/-- `add` with the sort flag set restores the full invariant. -/
theorem add_true_wf {m : HashRing} (nodes : List String) (hwf : WF m) :
    WF (m.add true nodes) := by
  unfold HashRing.add
  by_cases he : nodes.isEmpty
  · rw [if_pos he]
    exact hwf
  · rw [if_neg he]
    obtain ⟨h1, _, _⟩ := foldl_addNode_wf nodes m hwf.toWF0
    exact wf0_sortPos h1

/-! ## Preservation of the invariant by `remove`, `Reset`, `ResetAll` -/

/-- `removeNode` keeps the map invariant; the position slice and the
configuration are untouched. -/
theorem removeNode_wf {m : HashRing} (node : String) (hr : WFr m) (hm : WFmaps m) :
    (WFr (m.removeNode node) ∧ WFmaps (m.removeNode node)) ∧
    (m.removeNode node).replicas = m.replicas ∧
    (m.removeNode node).HashFunc = m.HashFunc ∧
    (m.removeNode node).vNodes = m.vNodes := by
  obtain ⟨hnk, hvk, hto, hfrom, hlenb⟩ := hm
  unfold HashRing.removeNode
  cases hmem : alookup m.nodeToVnode node with
  | none => exact ⟨⟨hr, hnk, hvk, hto, hfrom, hlenb⟩, rfl, rfl, rfl⟩
  | some ps =>
    have hnodeps : (node, ps) ∈ m.nodeToVnode := alookup_mem hmem
    refine ⟨⟨hr, ?_, ?_, ?_, ?_, ?_⟩, rfl, rfl, rfl⟩
    · exact akeys_nodup_aerase node hnk
    · exact akeys_nodup_foldl_aerase hvk
    · intro e he q hq
      have he' : e ∈ m.nodeToVnode := mem_of_mem_aerase he
      have hne : e.1 ≠ node := key_ne_of_mem_aerase he
      have h1 := hto e he' q hq
      have hqps : q ∉ ps := by
        intro hqin
        have h2 := hto (node, ps) hnodeps q hqin
        rw [h1] at h2
        injection h2 with h3
        exact hne h3
      rw [alookup_foldl_aerase, if_neg hqps]
      exact h1
    · intro e he
      have he' : e ∈ ps.foldl (fun r p => aerase r p) m.vnodeToNode := he
      have hel : e ∈ m.vnodeToNode := mem_foldl_aerase he'
      have h1 := hfrom e hel
      have hkey : e.1 ∈ akeys (ps.foldl (fun r p => aerase r p) m.vnodeToNode) :=
        mem_akeys_of_mem he'
      obtain ⟨w, hw⟩ := alookup_of_akeys_mem hkey
      rw [alookup_foldl_aerase] at hw
      have heps : e.1 ∉ ps := by
        intro hin
        rw [if_pos hin] at hw
        cases hw
      have hne : e.2 ≠ node := by
        intro h2
        rw [h2, hmem] at h1
        simp only [Option.getD_some] at h1
        exact heps h1
      rw [alookup_aerase_ne _ hne]
      exact h1
    · intro e he
      exact hlenb e (mem_of_mem_aerase he)

/-- The per-node fold of `remove` keeps the map invariant. -/
theorem foldl_removeNode_wf (nodes : List String) :
    ∀ m : HashRing, WFr m → WFmaps m →
      (WFr (nodes.foldl HashRing.removeNode m) ∧
       WFmaps (nodes.foldl HashRing.removeNode m)) ∧
      (nodes.foldl HashRing.removeNode m).replicas = m.replicas ∧
      (nodes.foldl HashRing.removeNode m).HashFunc = m.HashFunc := by
  induction nodes with
  | nil =>
    intro m hr hm
    exact ⟨⟨hr, hm⟩, rfl, rfl⟩
  | cons a t ih =>
    intro m hr hm
    rw [List.foldl_cons]
    obtain ⟨⟨h1, h2⟩, h3, h4, _⟩ := removeNode_wf a hr hm
    obtain ⟨g1, g2, g3⟩ := ih (m.removeNode a) h1 h2
    exact ⟨g1, by rw [g2, h3], by rw [g3, h4]⟩

/-- Rebuilding the position slice from the position map restores the
position-slice invariant; with the sort flag it restores sortedness too. -/
theorem rebuild_wf {m : HashRing} (hr : WFr m) (hm : WFmaps m) (doSort : Bool) :
    WF0 (m.rebuildVNodeSlice doSort) ∧
    (doSort = true → WF (m.rebuildVNodeSlice doSort)) := by
  obtain ⟨hnk, hvk, hto, hfrom, hlenb⟩ := hm
  unfold HashRing.rebuildVNodeSlice
  cases doSort with
  | false =>
    refine ⟨⟨hr, ⟨hnk, hvk, hto, hfrom, hlenb⟩, ?_, ?_, ?_, ?_⟩, by simp⟩
    · intro p hp
      simpa using hp
    · intro p hp
      simpa using hp
    · simp [akeys]
    · simpa using hvk
  | true =>
    have hperm := sortPos_perm (akeys m.vnodeToNode)
    have hwf0 : WF0 { m with vNodes := sortPos (akeys m.vnodeToNode) } := by
      refine ⟨hr, ⟨hnk, hvk, hto, hfrom, hlenb⟩, ?_, ?_, ?_, ?_⟩
      · intro p hp
        exact hperm.mem_iff.mp hp
      · intro p hp
        exact hperm.mem_iff.mpr hp
      · rw [hperm.length_eq]
        simp [akeys]
      · exact hperm.nodup_iff.mpr hvk
    refine ⟨hwf0, fun _ => ⟨hwf0, ?_⟩⟩
    exact sortPos_sorted_lt hvk

/-- `remove` with either sort flag keeps the unsorted invariant. -/
theorem remove_wf0 {m : HashRing} (doSort : Bool) (nodes : List String) (hwf : WF0 m) :
    WF0 (m.remove doSort nodes) ∧ (m.remove doSort nodes).replicas = m.replicas ∧
    (m.remove doSort nodes).HashFunc = m.HashFunc := by
  unfold HashRing.remove
  by_cases he : nodes.isEmpty
  · rw [if_pos he]
    exact ⟨hwf, rfl, rfl⟩
  · rw [if_neg he]
    obtain ⟨⟨h1, h2⟩, h3, h4⟩ := foldl_removeNode_wf nodes m hwf.1 hwf.2.1
    obtain ⟨g1, _⟩ := rebuild_wf h1 h2 doSort
    exact ⟨g1, by simp [HashRing.rebuildVNodeSlice, h3], by simp [HashRing.rebuildVNodeSlice, h4]⟩

/-- `Remove` (public) preserves the full invariant. -/
theorem Remove_wf {m : HashRing} (nodes : List String) (hwf : WF m) :
    WF (m.Remove nodes) := by
  unfold HashRing.Remove HashRing.remove
  by_cases he : nodes.isEmpty
  · rw [if_pos he]
    exact hwf
  · rw [if_neg he]
    obtain ⟨⟨h1, h2⟩, _, _⟩ := foldl_removeNode_wf nodes m hwf.1.1 hwf.1.2.1
    exact (rebuild_wf h1 h2 true).2 rfl

/-- `Add` (public) preserves the full invariant. -/
theorem Add_wf {m : HashRing} (nodes : List String) (hwf : WF m) :
    WF (m.Add nodes).1 := by
  unfold HashRing.Add
  by_cases hc : m.vnodeToNode.length + nodes.length * m.replicas > limitVNodes
  · rw [if_pos hc]
    exact hwf
  · rw [if_neg hc]
    exact add_true_wf nodes hwf

/-- `Reset` (public) preserves the full invariant. -/
theorem Reset_wf {m : HashRing} (nodes : List String) (hwf : WF m) :
    WF (m.Reset nodes).1 := by
  unfold HashRing.Reset
  by_cases hc : nodes.length * m.replicas > limitVNodes
  · rw [if_pos hc]
    exact hwf
  · rw [if_neg hc]
    simp only []
    obtain ⟨h1, _, _⟩ := remove_wf0 false (m.delNodes nodes) hwf.toWF0
    obtain ⟨h2, _, _⟩ := add_wf0 false ((m.remove false (m.delNodes nodes)).addNodesOf nodes) h1
    by_cases hde : ((m.delNodes nodes).isEmpty && ((m.remove false (m.delNodes nodes)).addNodesOf nodes).isEmpty) = true
    · rw [if_pos hde]
      simp only [Bool.and_eq_true] at hde
      have hdel : m.delNodes nodes = [] := by
        have := hde.1
        simpa [List.isEmpty_iff] using this
      have hm1 : m.remove false (m.delNodes nodes) = m := by
        rw [hdel]
        simp [HashRing.remove]
      have hadds : (m.remove false (m.delNodes nodes)).addNodesOf nodes = [] := by
        have := hde.2
        simpa [List.isEmpty_iff] using this
      rw [hadds, hm1]
      simpa [HashRing.add] using hwf
    · rw [if_neg hde]
      exact wf0_sortPos h2

/-- `clear` produces a well-formed (empty, default-configured) ring. -/
theorem clear_wf (m : HashRing) : WF m.clear := by
  refine ⟨⟨⟨?_, ?_⟩, ⟨?_, ?_, ?_, ?_, ?_⟩, ?_, ?_, ?_, ?_⟩, ?_⟩ <;>
    simp [HashRing.clear, miniReplicas, defaultReplicas, akeys]

/-- A ring whose collections are all empty and whose replica count is in the
`uint16` range satisfies the full invariant. -/
theorem wf_of_empty {m : HashRing} (h1 : m.vNodes = []) (h2 : m.vnodeToNode = [])
    (h3 : m.nodeToVnode = []) (h4 : miniReplicas ≤ m.replicas) (h5 : m.replicas < 65536) :
    WF m := by
  refine ⟨⟨⟨h4, h5⟩, ⟨?_, ?_, ?_, ?_, ?_⟩, ?_, ?_, ?_, ?_⟩, ?_⟩ <;>
    simp [h1, h2, h3, akeys]

/-- The `clear`-then-configure step of `ResetAll` yields a well-formed empty
ring for any `uint16` replica argument. -/
theorem clear_applyConfig_wf (m : HashRing) (replicas : Nat) (hash : Option Hash32)
    (hrep : replicas < 65536) :
    WF (m.clear.applyConfig replicas hash) := by
  have hrepl : (m.clear.applyConfig replicas hash).replicas =
      if miniReplicas ≤ replicas then replicas else defaultReplicas := by
    cases hash <;> by_cases hmin : miniReplicas ≤ replicas <;>
      simp [HashRing.applyConfig, HashRing.clear, hmin]
  have hvn : (m.clear.applyConfig replicas hash).vNodes = [] := by
    cases hash <;> by_cases hmin : miniReplicas ≤ replicas <;>
      simp [HashRing.applyConfig, HashRing.clear, hmin]
  have hv2 : (m.clear.applyConfig replicas hash).vnodeToNode = [] := by
    cases hash <;> by_cases hmin : miniReplicas ≤ replicas <;>
      simp [HashRing.applyConfig, HashRing.clear, hmin]
  have hv3 : (m.clear.applyConfig replicas hash).nodeToVnode = [] := by
    cases hash <;> by_cases hmin : miniReplicas ≤ replicas <;>
      simp [HashRing.applyConfig, HashRing.clear, hmin]
  refine wf_of_empty hvn hv2 hv3 ?_ ?_
  · rw [hrepl]
    split
    · assumption
    · decide
  · rw [hrepl]
    split
    · exact hrep
    · decide

/-- `ResetAll` (public) establishes the full invariant for any `uint16`
replica argument. -/
theorem ResetAll_wf {m : HashRing} (replicas : Nat) (hash : Option Hash32)
    (nodes : List String) (hrep : replicas < 65536) :
    WF (m.ResetAll replicas hash nodes).1 := by
  unfold HashRing.ResetAll
  have hwf2 := clear_applyConfig_wf m replicas hash hrep
  by_cases hc : nodes.length * (m.clear.applyConfig replicas hash).replicas > limitVNodes
  · rw [if_pos hc]
    exact hwf2
  · rw [if_neg hc]
    exact add_true_wf nodes hwf2

/-- `New` establishes the full invariant for any `uint16` replica
argument. -/
theorem New_wf (replicas : Nat) (hash : Option Hash32) (hrep : replicas < 65536) :
    WF (New replicas hash) := by
  refine ⟨⟨⟨?_, ?_⟩, ⟨?_, ?_, ?_, ?_, ?_⟩, ?_, ?_, ?_, ?_⟩, ?_⟩ <;>
    simp [New, miniReplicas, defaultReplicas, akeys] <;>
    split <;> omega

/-! ## Claim C3: the ring invariants after construction and every public
operation -/

/-- The invariant asserted by claim C3: ascending duplicate-free position
slice, slice elements exactly the position-map keys with equal lengths, and
unique keys in the position map (each position owned by exactly one node). -/
def RingInvariant (m : HashRing) : Prop :=
  m.vNodes.Sorted (· < ·) ∧
  m.vNodes.Nodup ∧
  (∀ p, p ∈ m.vNodes ↔ p ∈ akeys m.vnodeToNode) ∧
  m.vNodes.length = m.vnodeToNode.length ∧
  (akeys m.vnodeToNode).Nodup

theorem wf_ringInvariant {m : HashRing} (hwf : WF m) : RingInvariant m := by
  obtain ⟨⟨hr, ⟨hnk, hvk, hto, hfrom, hlenb⟩, hv1, hv2, hv3, hv4⟩, hs⟩ := hwf
  exact ⟨hs, hv4, fun p => ⟨hv1 p, hv2 p⟩, hv3, hvk⟩

/-- C3: after construction (`New`) and after each public mutating operation
(`Add`, `Remove`, `Reset`, `ResetAll`) returns, the sorted position slice is
strictly ascending and duplicate-free, its elements coincide with the keys of
the position-to-node map (equal lengths, no orphans in either direction), and
every position maps to exactly one physical node.  The replica arguments of
`New` and `ResetAll` range over `uint16` values, as in the source. -/
theorem claim_c3_invariants :
    (∀ replicas hash, replicas < 65536 → RingInvariant (New replicas hash)) ∧
    (∀ m, WF m →
      (∀ nodes, RingInvariant (m.Add nodes).1) ∧
      (∀ nodes, RingInvariant (m.Remove nodes)) ∧
      (∀ nodes, RingInvariant (m.Reset nodes).1) ∧
      (∀ replicas hash nodes, replicas < 65536 →
        RingInvariant (m.ResetAll replicas hash nodes).1)) := by
  constructor
  · intro replicas hash hrep
    exact wf_ringInvariant (New_wf replicas hash hrep)
  · intro m hwf
    refine ⟨fun nodes => wf_ringInvariant (Add_wf nodes hwf),
      fun nodes => wf_ringInvariant (Remove_wf nodes hwf),
      fun nodes => wf_ringInvariant (Reset_wf nodes hwf),
      fun replicas hash nodes hrep => wf_ringInvariant (ResetAll_wf replicas hash nodes hrep)⟩

/-- Witness for C3 at concrete inputs: a fresh two-replica ring and the ring
after adding two nodes to it. -/
theorem claim_c3_invariants_witness :
    RingInvariant (New 2 (some (fun _ => 0))) ∧
    RingInvariant ((New 2 (some (fun _ => 0))).Add ["n1", "n2"]).1 :=
  ⟨claim_c3_invariants.1 2 (some (fun _ => 0)) (by decide),
   (claim_c3_invariants.2 (New 2 (some (fun _ => 0)))
      (New_wf 2 (some (fun _ => 0)) (by decide))).1 ["n1", "n2"]⟩


/-! ## Claim C2: the lookup rule of `Get` -/

theorem getD_eq_get {l : List Nat} {i : Nat} (h : i < l.length) :
    l.getD i 0 = l.get ⟨i, h⟩ := by
  rw [List.getD_eq_getElem?_getD, List.getElem?_eq_getElem h]
  simp [List.get_eq_getElem]

theorem sorted_getD_le {l : List Nat} (hs : l.Sorted (· < ·)) {a b : Nat}
    (hab : a ≤ b) (hb : b < l.length) : l.getD a 0 ≤ l.getD b 0 := by
  have ha : a < l.length := Nat.lt_of_le_of_lt hab hb
  rw [getD_eq_get ha, getD_eq_get hb]
  rcases Nat.eq_or_lt_of_le hab with h | h
  · exact le_of_eq (congrArg l.get (Fin.ext h))
  · exact le_of_lt (hs.get_strictMono (Fin.mk_lt_mk.mpr h))

/-- C2: on a well-formed non-empty ring, `Get` hashes the key with the
configured hash function and returns the owner of the smallest virtual-node
position at or after the hash (an exactly-equal position counts as the
match); when every position is below the hash it wraps around and returns
the owner of the smallest position on the ring. -/
theorem claim_c2_get {m : HashRing} (hwf : WF m) (hne : m.vnodeToNode ≠ [])
    (key : String) :
    (∃ v ∈ m.vNodes, m.HashFunc key ≤ v ∧
        (∀ w ∈ m.vNodes, m.HashFunc key ≤ w → v ≤ w) ∧
        m.Get key = Except.ok ((alookup m.vnodeToNode v).getD "")) ∨
    ((∀ v ∈ m.vNodes, v < m.HashFunc key) ∧
      ∃ v0 ∈ m.vNodes, (∀ w ∈ m.vNodes, v0 ≤ w) ∧
        m.Get key = Except.ok ((alookup m.vnodeToNode v0).getD "")) := by
  obtain ⟨⟨hr, hmaps, hv1, hv2, hv3, hv4⟩, hs⟩ := hwf
  have hlen0 : ¬ m.vnodeToNode.length = 0 := by
    simpa [List.length_eq_zero] using hne
  have hvlen : 0 < m.vNodes.length := by
    rw [hv3]
    omega
  have hmono : ∀ a b, a ≤ b → b < m.vNodes.length →
      (fun i => decide (m.HashFunc key ≤ m.vNodes.getD i 0)) a = true →
      (fun i => decide (m.HashFunc key ≤ m.vNodes.getD i 0)) b = true := by
    intro a b hab hb hfa
    simp only [decide_eq_true_eq] at hfa ⊢
    exact le_trans hfa (sorted_getD_le hs hab hb)
  obtain ⟨hle, hfound, hbelow⟩ :=
    goSearch_spec (fun i => decide (m.HashFunc key ≤ m.vNodes.getD i 0)) m.vNodes.length hmono
  have hGet : m.Get key = Except.ok ((alookup m.vnodeToNode
      (m.vNodes.getD (if goSearch m.vNodes.length
          (fun i => decide (m.HashFunc key ≤ m.vNodes.getD i 0)) = m.vNodes.length then 0
        else goSearch m.vNodes.length
          (fun i => decide (m.HashFunc key ≤ m.vNodes.getD i 0))) 0)).getD "") := by
    simp only [HashRing.Get, if_neg hlen0]
  rcases Nat.lt_or_ge (goSearch m.vNodes.length
      (fun i => decide (m.HashFunc key ≤ m.vNodes.getD i 0))) m.vNodes.length with hidx | hidx
  · left
    have hfi := hfound hidx
    simp only [decide_eq_true_eq] at hfi
    refine ⟨m.vNodes.getD (goSearch m.vNodes.length
        (fun i => decide (m.HashFunc key ≤ m.vNodes.getD i 0))) 0, ?_, hfi, ?_, ?_⟩
    · rw [getD_eq_get hidx]
      exact List.get_mem _ _ _
    · intro w hw hhw
      obtain ⟨j, hj⟩ := List.mem_iff_get.mp hw
      rcases Nat.lt_or_ge j.1 (goSearch m.vNodes.length
          (fun i => decide (m.HashFunc key ≤ m.vNodes.getD i 0))) with hji | hji
      · exfalso
        have hfalse := hbelow j.1 hji
        simp only [decide_eq_false_iff_not] at hfalse
        rw [getD_eq_get j.2, Fin.eta, hj] at hfalse
        exact hfalse hhw
      · have hmon := sorted_getD_le hs hji j.2
        rw [getD_eq_get j.2, Fin.eta, hj] at hmon
        exact hmon
    · rw [hGet, if_neg (Nat.ne_of_lt hidx)]
  · right
    have hidx' : goSearch m.vNodes.length
        (fun i => decide (m.HashFunc key ≤ m.vNodes.getD i 0)) = m.vNodes.length :=
      le_antisymm hle hidx
    constructor
    · intro v hv
      obtain ⟨j, hj⟩ := List.mem_iff_get.mp hv
      have hfalse := hbelow j.1 (by omega)
      simp only [decide_eq_false_iff_not] at hfalse
      rw [getD_eq_get j.2, Fin.eta, hj] at hfalse
      omega
    · refine ⟨m.vNodes.getD 0 0, ?_, ?_, ?_⟩
      · rw [getD_eq_get hvlen]
        exact List.get_mem _ _ _
      · intro w hw
        obtain ⟨j, hj⟩ := List.mem_iff_get.mp hw
        have hmon := sorted_getD_le hs (Nat.zero_le j.1) j.2
        rw [getD_eq_get j.2, Fin.eta, hj] at hmon
        exact hmon
      · rw [hGet, if_pos hidx']

/-- The concrete ring used by the C2 witness: two replicas, constant-zero
hash, nodes `A` and `B`. -/
def ringC2 : HashRing := ((New 2 (some (fun _ => 0))).Add ["A", "B"]).1

/-- Witness for C2: the lookup rule instantiated on a concrete two-node
ring. -/
theorem claim_c2_get_witness :
    (∃ v ∈ ringC2.vNodes, ringC2.HashFunc "k" ≤ v ∧
        (∀ w ∈ ringC2.vNodes, ringC2.HashFunc "k" ≤ w → v ≤ w) ∧
        ringC2.Get "k" = Except.ok ((alookup ringC2.vnodeToNode v).getD "")) ∨
    ((∀ v ∈ ringC2.vNodes, v < ringC2.HashFunc "k") ∧
      ∃ v0 ∈ ringC2.vNodes, (∀ w ∈ ringC2.vNodes, v0 ≤ w) ∧
        ringC2.Get "k" = Except.ok ((alookup ringC2.vnodeToNode v0).getD "")) :=
  claim_c2_get (Add_wf ["A", "B"] (New_wf 2 (some (fun _ => 0)) (by decide)))
    (by decide) "k"


/-- `add` of a single already-present node with the sort flag set leaves a
sorted state unchanged. -/
theorem add_member_id {m : HashRing} {n : String}
    (hmem : (alookup m.nodeToVnode n).isSome) (hsorted : m.vNodes.Sorted (· ≤ ·)) :
    m.add true [n] = m := by
  have h1 : m.addNode n = m := by
    unfold HashRing.addNode
    rw [if_pos hmem]
  unfold HashRing.add
  rw [if_neg (by simp)]
  simp only [List.foldl_cons, List.foldl_nil, h1, if_true]
  rw [sortPos_eq_self hsorted]

/-! ## Claim C8: re-adding a member changes nothing -/

/-- C8: on a well-formed ring that already contains node `n`, `Add(n)`
leaves the entire ring state unchanged — in particular the set of
virtual-node positions owned by `n` is unchanged. -/
theorem claim_c8_add_idempotent {m : HashRing} {n : String} (hwf : WF m)
    (hmem : (alookup m.nodeToVnode n).isSome) :
    (m.Add [n]).1 = m ∧
    alookup ((m.Add [n]).1).nodeToVnode n = alookup m.nodeToVnode n := by
  have hsorted : m.vNodes.Sorted (· ≤ ·) := hwf.2.imp le_of_lt
  have hstate : (m.Add [n]).1 = m := by
    unfold HashRing.Add
    by_cases hc : m.vnodeToNode.length + [n].length * m.replicas > limitVNodes
    · rw [if_pos hc]
    · rw [if_neg hc]
      exact add_member_id hmem hsorted
  exact ⟨hstate, by rw [hstate]⟩

/-- Witness for C8: re-adding node `A` to the concrete two-node ring built
from nodes `A` and `B`. -/
theorem claim_c8_add_idempotent_witness :
    (ringC2.Add ["A"]).1 = ringC2 ∧
    alookup ((ringC2.Add ["A"]).1).nodeToVnode "A" = alookup ringC2.nodeToVnode "A" :=
  claim_c8_add_idempotent
    (Add_wf ["A", "B"] (New_wf 2 (some (fun _ => 0)) (by decide))) (by decide)

/-! ## Claim C10: the capacity check of `Add` is conservative -/

theorem akeys_pair_map (c : String) (l : List Nat) :
    akeys (l.map (fun i => (i, c))) = l := by
  rw [akeys, List.map_map]
  simp [Function.comp_def]

theorem alookup_range_map (c : String) :
    ∀ n p : Nat, alookup ((List.range n).map (fun i => (i, c))) p =
      if p < n then some c else none := by
  intro n
  induction n with
  | zero =>
    intro p
    simp
  | succ k ih =>
    intro p
    rw [List.range_succ, List.map_append]
    by_cases hp : p < k
    · rw [alookup_append_left (by rw [akeys_pair_map]; exact List.mem_range.mpr hp),
        ih, if_pos hp, if_pos (by omega)]
    · rw [alookup_append_right
        (by rw [akeys_pair_map]; exact fun hm => hp (List.mem_range.mp hm))]
      simp only [List.map_cons, List.map_nil, alookup_cons, alookup_nil]
      by_cases hpk : k = p
      · rw [if_pos hpk, if_pos (by omega)]
      · rw [if_neg hpk, if_neg (by omega)]

/-- A ring state one position short of the safety ceiling, with a single
member node `a` owning every position. -/
def ringC10 : HashRing :=
  { HashFunc := fun _ => 0
    replicas := 2
    vNodes := List.range (2 ^ 30 - 1)
    vnodeToNode := (List.range (2 ^ 30 - 1)).map (fun i => (i, "a"))
    nodeToVnode := [("a", List.range (2 ^ 30 - 1))] }

set_option maxRecDepth 8192 in
/-- C10: the capacity check of `Add` compares the current virtual-node count
plus (number of argument nodes, members and duplicates included) times
`replicas` against the ceiling; consequently, near the ceiling, re-adding an
already-present node returns the ring-full error even though executing the
call would change nothing (so the ceiling could not be exceeded). -/
theorem claim_c10_capacity_conservative :
    (∀ (m : HashRing) (nodes : List String),
        (m.Add nodes).2 = some RingErr.ringFull ↔
          m.vnodeToNode.length + nodes.length * m.replicas > limitVNodes) ∧
    (ringC10.Add ["a"]).2 = some RingErr.ringFull ∧
    ringC10.add true ["a"] = ringC10 := by
  have hlen : ringC10.vnodeToNode.length = 2 ^ 30 - 1 := by
    simp [ringC10]
  refine ⟨?_, ?_, ?_⟩
  · intro m nodes
    unfold HashRing.Add
    by_cases hc : m.vnodeToNode.length + nodes.length * m.replicas > limitVNodes
    · simp [hc]
    · simp [hc]
  · have hrep : ringC10.replicas = 2 := rfl
    have hc : ringC10.vnodeToNode.length + (["a"] : List String).length * ringC10.replicas >
        limitVNodes := by
      rw [hlen, hrep]
      norm_num [limitVNodes]
    unfold HashRing.Add
    rw [if_pos hc]
  · have hmem : (alookup ringC10.nodeToVnode "a").isSome := by
      simp [ringC10, alookup_cons]
    have hsorted : ringC10.vNodes.Sorted (· ≤ ·) := by
      simp only [ringC10]
      exact (List.pairwise_lt_range (2 ^ 30 - 1)).imp le_of_lt
    exact add_member_id hmem hsorted


/-! ## Claim C7: the collision-resolution policy -/

/-- C7: inside `add`, an occupied candidate position is recomputed by
folding (previous position + 1) into the same segment, for at most two extra
attempts; when all three candidates are occupied the single virtual-node
replica is dropped silently (the state is left untouched and the loop goes
on), and `Add` never fails because of collisions — its only error is the
capacity check. -/
theorem claim_c7_collision_policy :
    (∀ (ring : List (Nat × String)) (s l h : Nat),
      (alookup ring ((s + numHash h l) % U32) = none →
        tryPos ring s l h = some ((s + numHash h l) % U32)) ∧
      ((alookup ring ((s + numHash h l) % U32)).isSome →
        alookup ring ((s + numHash (((s + numHash h l) % U32 + 1) % U32) l) % U32) = none →
        tryPos ring s l h =
          some ((s + numHash (((s + numHash h l) % U32 + 1) % U32) l) % U32)) ∧
      ((alookup ring ((s + numHash h l) % U32)).isSome →
        (alookup ring ((s + numHash (((s + numHash h l) % U32 + 1) % U32) l) % U32)).isSome →
        alookup ring ((s + numHash (((s + numHash (((s + numHash h l) % U32 + 1) % U32) l)
            % U32 + 1) % U32) l) % U32) = none →
        tryPos ring s l h =
          some ((s + numHash (((s + numHash (((s + numHash h l) % U32 + 1) % U32) l)
            % U32 + 1) % U32) l) % U32)) ∧
      ((alookup ring ((s + numHash h l) % U32)).isSome →
        (alookup ring ((s + numHash (((s + numHash h l) % U32 + 1) % U32) l) % U32)).isSome →
        (alookup ring ((s + numHash (((s + numHash (((s + numHash h l) % U32 + 1) % U32) l)
            % U32 + 1) % U32) l) % U32)).isSome →
        tryPos ring s l h = none)) ∧
    (∀ (m : HashRing) (node : String) (ui : Nat),
      tryPos m.vnodeToNode (segmentLen m.replicas * ui % U32) (segmentLen m.replicas)
          (m.HashFunc (combKey node ui)) = none →
        m.addVNode node ui = m) ∧
    (∀ (m : HashRing) (nodes : List String),
      (m.Add nodes).2 = none ↔
        m.vnodeToNode.length + nodes.length * m.replicas ≤ limitVNodes) := by
  refine ⟨?_, ?_, ?_⟩
  · intro ring s l h
    refine ⟨?_, ?_, ?_, ?_⟩
    · intro h1
      simp only [tryPos]
      rw [if_neg (by rw [h1]; simp)]
    · intro h1 h2
      simp only [tryPos]
      rw [if_pos h1, if_neg (by rw [h2]; simp)]
    · intro h1 h2 h3
      simp only [tryPos]
      rw [if_pos h1, if_pos h2, if_neg (by rw [h3]; simp)]
    · intro h1 h2 h3
      simp only [tryPos]
      rw [if_pos h1, if_pos h2, if_pos h3]
  · intro m node ui htp
    simp only [HashRing.addVNode]
    rw [htp]
  · intro m nodes
    unfold HashRing.Add
    by_cases hc : m.vnodeToNode.length + nodes.length * m.replicas > limitVNodes
    · rw [if_pos hc]
      constructor
      · intro h
        exact absurd h (by simp)
      · intro h
        exact absurd h (by omega)
    · rw [if_neg hc]
      constructor
      · intro _
        omega
      · intro _
        rfl

/-- Witness for C7: the all-occupied case at a concrete ring with the three
candidate positions of segment 0 occupied, the silent skip at a concrete
state, and a successful `Add` far below the ceiling. -/
theorem claim_c7_collision_policy_witness :
    tryPos [((0 : Nat), "x"), (16777619, "x"), (654474236, "x")] 0 (segmentLen 2) 0 = none ∧
    HashRing.addVNode
      { HashFunc := fun _ => 0, replicas := 2, vNodes := [0, 16777619, 654474236],
        vnodeToNode := [((0 : Nat), "x"), (16777619, "x"), (654474236, "x")],
        nodeToVnode := [("x", [0, 16777619, 654474236])] } "B" 0 =
      { HashFunc := fun _ => 0, replicas := 2, vNodes := [0, 16777619, 654474236],
        vnodeToNode := [((0 : Nat), "x"), (16777619, "x"), (654474236, "x")],
        nodeToVnode := [("x", [0, 16777619, 654474236])] } ∧
    ((New 2 (some (fun _ => 0))).Add ["A"]).2 = none := by
  refine ⟨?_, ?_, ?_⟩
  · exact (claim_c7_collision_policy.1 [((0 : Nat), "x"), (16777619, "x"), (654474236, "x")]
      0 (segmentLen 2) 0).2.2.2 (by decide) (by decide) (by decide)
  · exact claim_c7_collision_policy.2.1 _ "B" 0 (by decide)
  · exact (claim_c7_collision_policy.2.2 (New 2 (some (fun _ => 0))) ["A"]).mpr (by decide)

/-! ## Claim C6: segment-partitioned placement -/

/-- C6: the first candidate position for virtual-node index `i` of a node is
`i * segmentLen + ((hash(itoa(i) ++ node) * 16777619 mod 2^32) mod
segmentLen)` — the `uint32` wrap-arounds of the source are no-ops here — and
every position the collision ladder retains for index `i` lies inside
segment `i`, i.e. in `[i * segmentLen, (i+1) * segmentLen)`. -/
theorem claim_c6_segment_placement (f : Hash32) (r : Nat) (node : String) (i : Nat)
    (h2 : miniReplicas ≤ r) (hr : r < 65536) (hi : i < r) :
    cand f r node i =
      segmentLen r * i + (f (combKey node i) * 16777619 % U32) % segmentLen r ∧
    ∀ (ring : List (Nat × String)) (p : Nat),
      tryPos ring (segmentLen r * i % U32) (segmentLen r) (f (combKey node i)) = some p →
      segmentLen r * i ≤ p ∧ p < segmentLen r * (i + 1) := by
  have hrpos : 0 < r := by
    unfold miniReplicas at h2
    omega
  have hslpos : 0 < segmentLen r := by
    unfold segmentLen U32
    apply Nat.div_pos _ hrpos
    omega
  have hmulr : segmentLen r * r ≤ U32 - 1 := by
    unfold segmentLen
    rw [Nat.mul_comm]
    exact Nat.mul_div_le _ _
  have hstart : segmentLen r * (i + 1) ≤ U32 - 1 := by
    calc segmentLen r * (i + 1) ≤ segmentLen r * r := by
          apply Nat.mul_le_mul_left
          omega
      _ ≤ U32 - 1 := hmulr
  have hstartlt : segmentLen r * i < U32 := by
    have hlt : segmentLen r * i < segmentLen r * (i + 1) :=
      (mul_lt_mul_left hslpos).mpr (Nat.lt_succ_self i)
    have hU : 0 < U32 := by
      unfold U32
      norm_num
    omega
  have hmodstart : segmentLen r * i % U32 = segmentLen r * i := Nat.mod_eq_of_lt hstartlt
  have hinseg : ∀ x : Nat, segmentLen r * i + numHash x (segmentLen r) < U32 := by
    intro x
    have hnum : numHash x (segmentLen r) < segmentLen r := by
      unfold numHash
      exact Nat.mod_lt _ hslpos
    have : segmentLen r * i + numHash x (segmentLen r) < segmentLen r * (i + 1) := by
      rw [Nat.mul_succ]
      omega
    omega
  constructor
  · unfold cand
    rw [hmodstart]
    rw [Nat.mod_eq_of_lt (hinseg (f (combKey node i)))]
    rfl
  · intro ring p hp
    obtain ⟨-, x, hx⟩ := tryPos_some hp
    rw [hmodstart] at hx
    rw [Nat.mod_eq_of_lt (hinseg x)] at hx
    have hnum : numHash x (segmentLen r) < segmentLen r := by
      unfold numHash
      exact Nat.mod_lt _ hslpos
    subst hx
    constructor
    · omega
    · rw [Nat.mul_succ]
      omega

/-- Witness for C6 at concrete inputs: a constant hash, two replicas, and
virtual-node index 1. -/
theorem claim_c6_segment_placement_witness :
    cand (fun _ => 12345) 2 "n" 1 =
      segmentLen 2 * 1 + ((fun _ => (12345 : Nat)) (combKey "n" 1) * 16777619 % U32) % segmentLen 2 ∧
    ∀ (ring : List (Nat × String)) (p : Nat),
      tryPos ring (segmentLen 2 * 1 % U32) (segmentLen 2) ((fun _ => (12345 : Nat)) (combKey "n" 1)) = some p →
      segmentLen 2 * 1 ≤ p ∧ p < segmentLen 2 * (1 + 1) :=
  claim_c6_segment_placement (fun _ => 12345) 2 "n" 1 (by decide) (by decide) (by decide)


/-! ## Claim C1: state after a ring-full error -/

/-- Counterexample to C1 as stated: `ResetAll` clears the ring and installs
the new configuration before its capacity check, so a call that returns the
ring-full error does not leave the prior state.  Concretely: a one-node ring
reset with `2^29 + 1` nodes at two replicas returns ring-full, yet its
membership map afterwards is empty rather than the prior one-node map. -/
theorem claim_c1_counterexample :
    ((((New 2 (some (fun _ => 0))).Add ["A"]).1).ResetAll 2 none
        (List.replicate (2 ^ 29 + 1) "x")).2 = some RingErr.ringFull ∧
    ((((New 2 (some (fun _ => 0))).Add ["A"]).1).ResetAll 2 none
        (List.replicate (2 ^ 29 + 1) "x")).1.nodeToVnode ≠
      ((((New 2 (some (fun _ => 0))).Add ["A"]).1)).nodeToVnode := by
  have hrep : (((((New 2 (some (fun _ => 0))).Add ["A"]).1)).clear.applyConfig 2 none).replicas
      = 2 := rfl
  have hcond : (List.replicate (2 ^ 29 + 1) "x").length *
      (((((New 2 (some (fun _ => 0))).Add ["A"]).1)).clear.applyConfig 2 none).replicas >
      limitVNodes := by
    rw [List.length_replicate, hrep]
    norm_num [limitVNodes]
  constructor
  · simp only [HashRing.ResetAll]
    rw [if_pos hcond]
  · simp only [HashRing.ResetAll]
    rw [if_pos hcond]
    intro heq
    have hempty : (((((New 2 (some (fun _ => 0))).Add ["A"]).1)).clear.applyConfig
        2 none).nodeToVnode = [] := rfl
    rw [hempty] at heq
    have : ((((New 2 (some (fun _ => 0))).Add ["A"]).1)).nodeToVnode ≠ [] := by decide
    exact this heq.symm

/-- C1 amended: a ring-full error from `Add` or `Reset` leaves the entire
ring state — membership, positions, position map, replica count and hash
function — exactly as before the call, since their capacity checks run
before any mutation; but a ring-full error from `ResetAll` leaves the ring
cleared (empty membership, positions and position map) with the new
configuration applied, because `ResetAll` clears the ring before its
capacity check. -/
theorem claim_c1_amended :
    (∀ (m : HashRing) (nodes : List String),
      (m.Add nodes).2 = some RingErr.ringFull → (m.Add nodes).1 = m) ∧
    (∀ (m : HashRing) (nodes : List String),
      (m.Reset nodes).2 = some RingErr.ringFull → (m.Reset nodes).1 = m) ∧
    (∀ (m : HashRing) (replicas : Nat) (hash : Option Hash32) (nodes : List String),
      (m.ResetAll replicas hash nodes).2 = some RingErr.ringFull →
        (m.ResetAll replicas hash nodes).1 = m.clear.applyConfig replicas hash ∧
        (m.ResetAll replicas hash nodes).1.vNodes = [] ∧
        (m.ResetAll replicas hash nodes).1.vnodeToNode = [] ∧
        (m.ResetAll replicas hash nodes).1.nodeToVnode = []) := by
  refine ⟨?_, ?_, ?_⟩
  · intro m nodes herr
    unfold HashRing.Add at herr ⊢
    by_cases hc : m.vnodeToNode.length + nodes.length * m.replicas > limitVNodes
    · rw [if_pos hc]
    · rw [if_neg hc] at herr
      exact absurd herr (by simp)
  · intro m nodes herr
    unfold HashRing.Reset at herr ⊢
    by_cases hc : nodes.length * m.replicas > limitVNodes
    · rw [if_pos hc]
    · rw [if_neg hc] at herr
      exact absurd herr (by simp)
  · intro m replicas hash nodes herr
    unfold HashRing.ResetAll at herr ⊢
    by_cases hc : nodes.length * (m.clear.applyConfig replicas hash).replicas > limitVNodes
    · rw [if_pos hc]
      have hvn : (m.clear.applyConfig replicas hash).vNodes = [] := by
        cases hash <;> by_cases hmin : miniReplicas ≤ replicas <;>
          simp [HashRing.applyConfig, HashRing.clear, hmin]
      have hv2 : (m.clear.applyConfig replicas hash).vnodeToNode = [] := by
        cases hash <;> by_cases hmin : miniReplicas ≤ replicas <;>
          simp [HashRing.applyConfig, HashRing.clear, hmin]
      have hv3 : (m.clear.applyConfig replicas hash).nodeToVnode = [] := by
        cases hash <;> by_cases hmin : miniReplicas ≤ replicas <;>
          simp [HashRing.applyConfig, HashRing.clear, hmin]
      exact ⟨rfl, hvn, hv2, hv3⟩
    · rw [if_neg hc] at herr
      exact absurd herr (by simp)

/-- Witness for the amended C1: an erroring `Add`, `Reset` and `ResetAll` on
concrete inputs (a fresh two-replica ring and `2^29 + 1` nodes). -/
theorem claim_c1_amended_witness :
    ((New 2 (some (fun _ => 0))).Add (List.replicate (2 ^ 29 + 1) "x")).1 =
      New 2 (some (fun _ => 0)) ∧
    ((New 2 (some (fun _ => 0))).Reset (List.replicate (2 ^ 29 + 1) "x")).1 =
      New 2 (some (fun _ => 0)) ∧
    ((New 2 (some (fun _ => 0))).ResetAll 2 none (List.replicate (2 ^ 29 + 1) "x")).1.nodeToVnode
      = [] := by
  have hlen : (List.replicate (2 ^ 29 + 1) "x").length = 2 ^ 29 + 1 :=
    List.length_replicate _ _
  have hrepnew : (New 2 (some (fun _ => 0))).replicas = 2 := rfl
  have hlennew : (New 2 (some (fun _ => 0))).vnodeToNode.length = 0 := rfl
  have hrepcfg : (((New 2 (some (fun _ => 0))).clear.applyConfig 2 none)).replicas = 2 := rfl
  refine ⟨claim_c1_amended.1 _ _ ?_, (claim_c1_amended.2.1 _ _ ?_),
    (claim_c1_amended.2.2 _ 2 none _ ?_).2.2.2⟩
  · simp only [HashRing.Add]
    rw [if_pos (by rw [hlen, hrepnew, hlennew]; norm_num [limitVNodes])]
  · simp only [HashRing.Reset]
    rw [if_pos (by rw [hlen, hrepnew]; norm_num [limitVNodes])]
  · simp only [HashRing.ResetAll]
    rw [if_pos (by rw [hlen, hrepcfg]; norm_num [limitVNodes])]


/-! ## Claim C9: the empty-ring condition -/

/-- Ring states reachable through construction and the public mutating
operations (replica arguments range over `uint16`, as in the source). -/
inductive Reachable : HashRing → Prop
  | new (replicas : Nat) (hash : Option Hash32) (h : replicas < 65536) :
      Reachable (New replicas hash)
  | add (m : HashRing) (nodes : List String) : Reachable m → Reachable (m.Add nodes).1
  | remove (m : HashRing) (nodes : List String) : Reachable m → Reachable (m.Remove nodes)
  | reset (m : HashRing) (nodes : List String) : Reachable m → Reachable (m.Reset nodes).1
  | resetAll (m : HashRing) (replicas : Nat) (hash : Option Hash32) (nodes : List String)
      (h : replicas < 65536) : Reachable m → Reachable (m.ResetAll replicas hash nodes).1

/-- Every reachable ring satisfies the full invariant. -/
theorem reachable_wf {m : HashRing} (h : Reachable m) : WF m := by
  induction h with
  | new replicas hash h => exact New_wf replicas hash h
  | add m nodes _ ih => exact Add_wf nodes ih
  | remove m nodes _ ih => exact Remove_wf nodes ih
  | reset m nodes _ ih => exact Reset_wf nodes ih
  | resetAll m replicas hash nodes h _ ih => exact ResetAll_wf replicas hash nodes h

/-- An adversarial hash for which a fourth node's six candidate positions
(three per segment, two replicas) are all occupied by three earlier nodes,
so the fourth node is registered with zero virtual nodes. -/
def advHash9 : Hash32 := fun s =>
  if s = "0A1" then 0
  else if s = "1A1" then 0
  else if s = "0A2" then 16777619 * 899433627 % U32
  else if s = "1A2" then 899433627
  else if s = "0A3" then 654474236 * 899433627 % U32
  else if s = "1A3" then 16777620 * 899433627 % U32
  else 0

/-- A reachable ring with a registered physical node (`B`) and no virtual
nodes at all: `B`'s replicas were all collision-dropped at `Add` time, and
the three helper nodes were then removed. -/
def ring9 : HashRing :=
  ((((New 2 (some advHash9)).Add ["A1", "A2", "A3"]).1.Add ["B"]).1).Remove ["A1", "A2", "A3"]

/-- Counterexample to C9 as stated: a reachable ring on which `Get` fails
with the empty-ring error — there are indeed zero virtual nodes — although
one physical node is still registered, so "zero virtual nodes" does not
coincide with "zero registered nodes". -/
theorem claim_c9_counterexample :
    Reachable ring9 ∧
    ring9.vnodeToNode = [] ∧
    ring9.nodeToVnode = [("B", [])] ∧
    ring9.Get "anything" = Except.error RingErr.ringEmpty := by
  refine ⟨?_, by decide, by decide, by decide⟩
  exact Reachable.remove _ _ (Reachable.add _ _ (Reachable.add _ _
    (Reachable.new 2 (some advHash9) (by decide))))

/-- C9 amended: `Get` fails with the empty-ring error exactly when there are
no virtual-node positions; on every reachable ring, zero registered nodes
forces zero virtual nodes, and a nonempty virtual-node map forces registered
nodes — but the converse fails (see the counterexample): a reachable ring
can have registered nodes and zero virtual nodes. -/
theorem claim_c9_amended :
    (∀ (m : HashRing) (key : String),
      m.Get key = Except.error RingErr.ringEmpty ↔ m.vnodeToNode = []) ∧
    (∀ m : HashRing, Reachable m → m.nodeToVnode = [] → m.vnodeToNode = []) ∧
    (∀ m : HashRing, Reachable m → m.vnodeToNode ≠ [] → m.nodeToVnode ≠ []) := by
  have hfrom : ∀ m : HashRing, Reachable m → ∀ e ∈ m.vnodeToNode,
      e.1 ∈ (alookup m.nodeToVnode e.2).getD [] := by
    intro m hr
    exact (reachable_wf hr).1.2.1.2.2.2.1
  refine ⟨?_, ?_, ?_⟩
  · intro m key
    unfold HashRing.Get
    by_cases hc : m.vnodeToNode.length = 0
    · rw [if_pos hc]
      simp [List.length_eq_zero.mp hc]
    · rw [if_neg hc]
      constructor
      · intro h
        cases h
      · intro h
        rw [h] at hc
        simp at hc
  · intro m hr hnode
    cases hv : m.vnodeToNode with
    | nil => rfl
    | cons e t =>
      have := hfrom m hr e (by rw [hv]; exact List.mem_cons_self _ _)
      rw [hnode] at this
      simp [alookup_nil] at this
  · intro m hr hvne hnode
    cases hv : m.vnodeToNode with
    | nil => exact hvne hv
    | cons e t =>
      have := hfrom m hr e (by rw [hv]; exact List.mem_cons_self _ _)
      rw [hnode] at this
      simp [alookup_nil] at this

/-- Witness for the amended C9 at concrete rings: the empty-ring
equivalence on a fresh ring, and both implications on a reachable one-node
ring. -/
theorem claim_c9_amended_witness :
    ((New 2 (some (fun _ => 7))).Get "q" = Except.error RingErr.ringEmpty ↔
      (New 2 (some (fun _ => 7))).vnodeToNode = []) ∧
    (((New 2 (some (fun _ => 7))).Add ["W"]).1.vnodeToNode ≠ [] →
      ((New 2 (some (fun _ => 7))).Add ["W"]).1.nodeToVnode ≠ []) :=
  ⟨claim_c9_amended.1 (New 2 (some (fun _ => 7))) "q",
   claim_c9_amended.2.2 ((New 2 (some (fun _ => 7))).Add ["W"]).1
     (Reachable.add _ _ (Reachable.new 2 (some (fun _ => 7)) (by decide)))⟩


/-! ## Order-independence infrastructure (claim C4) -/

/-- A free first candidate is taken directly by the collision ladder. -/
theorem tryPos_of_free {ring : List (Nat × String)} {s l h : Nat}
    (hfree : alookup ring ((s + numHash h l) % U32) = none) :
    tryPos ring s l h = some ((s + numHash h l) % U32) := by
  simp only [tryPos]
  rw [if_neg (by rw [hfree]; simp)]

section AListLemmas3

set_option linter.unusedSectionVars false

variable {κ ν : Type} [DecidableEq κ]

theorem aupdate_self_eq {l : List (κ × ν)} {k : κ} {v : ν}
    (h : alookup l k = some v) : aupdate l k v = l := by
  induction l with
  | nil => simp at h
  | cons e t ih =>
    rw [alookup_cons] at h
    rw [aupdate_cons]
    by_cases he : e.1 = k
    · rw [if_pos he]
      rw [if_pos he] at h
      injection h with h2
      obtain ⟨a, b⟩ := e
      have ha : a = k := he
      have hb : b = v := h2
      rw [ha, hb]
    · rw [if_neg he]
      rw [if_neg he] at h
      rw [ih h]

theorem aupdate_aupdate (l : List (κ × ν)) (k : κ) (v w : ν) :
    aupdate (aupdate l k v) k w = aupdate l k w := by
  induction l with
  | nil => rw [aupdate_nil, aupdate_nil, aupdate_cons, if_pos rfl]
  | cons e t ih =>
    rw [aupdate_cons]
    by_cases he : e.1 = k
    · rw [if_pos he, aupdate_cons, if_pos rfl, aupdate_cons, if_pos he]
    · rw [if_neg he, aupdate_cons, if_neg he, aupdate_cons, if_neg he, ih]

theorem aupdate_append_notin {l : List (κ × ν)} {k : κ} (v w : ν)
    (h : k ∉ akeys l) : aupdate (l ++ [(k, v)]) k w = l ++ [(k, w)] := by
  induction l with
  | nil => simp [aupdate_cons]
  | cons e t ih =>
    have he : e.1 ≠ k := by
      intro heq
      exact h (by simp [heq])
    rw [List.cons_append, aupdate_cons, if_neg he, List.cons_append,
      ih (fun hm => h (by rw [akeys_cons]; exact List.mem_cons_of_mem _ hm))]

theorem alookup_perm {l₁ l₂ : List (κ × ν)} (hp : l₁.Perm l₂) :
    (akeys l₁).Nodup → ∀ k, alookup l₁ k = alookup l₂ k := by
  induction hp with
  | nil =>
    intro _ k
    rfl
  | cons x h ih =>
    intro hnd k
    rw [alookup_cons, alookup_cons]
    by_cases hx : x.1 = k
    · rw [if_pos hx, if_pos hx]
    · rw [if_neg hx, if_neg hx]
      rw [akeys_cons, List.nodup_cons] at hnd
      exact ih hnd.2 k
  | swap x y l =>
    intro hnd k
    rw [akeys_cons, akeys_cons, List.nodup_cons] at hnd
    by_cases hy : y.1 = k
    · have hx : x.1 ≠ k := fun hx =>
        hnd.1 (by rw [hy, ← hx]; exact List.mem_cons_self _ _)
      simp [alookup_cons, hy, hx]
    · by_cases hx : x.1 = k
      · simp [alookup_cons, hy, hx]
      · simp [alookup_cons, hy, hx]
  | trans h₁ h₂ ih₁ ih₂ =>
    intro hnd k
    rw [ih₁ hnd k, ih₂ (((h₁.map Prod.fst).nodup_iff).mp hnd) k]

end AListLemmas3


theorem akeys_map_pair {α κ ν : Type} [DecidableEq κ] (g : α → κ) (c : α → ν) (l : List α) :
    akeys (l.map (fun a => (g a, c a))) = l.map g := by
  induction l with
  | nil => rfl
  | cons a t ih =>
    rw [List.map_cons, akeys_cons, ih, List.map_cons]

/-- The inner loop of `add`, when every candidate position of the listed
indices is free and the candidates are pairwise distinct, inserts exactly
the first-attempt candidate positions. -/
theorem addVNode_fold_free (f : Hash32) (r : Nat) (node : String) :
    ∀ (is : List Nat) (m : HashRing) (ps : List Nat),
      m.HashFunc = f → m.replicas = r →
      alookup m.nodeToVnode node = some ps →
      (∀ i ∈ is, alookup m.vnodeToNode (cand f r node i) = none) →
      (is.map (cand f r node)).Nodup →
      is.foldl (fun acc ui => acc.addVNode node ui) m =
        { m with
          vnodeToNode := m.vnodeToNode ++ is.map (fun i => (cand f r node i, node)),
          vNodes := m.vNodes ++ is.map (cand f r node),
          nodeToVnode := aupdate m.nodeToVnode node (ps ++ is.map (cand f r node)) } := by
  intro is
  induction is with
  | nil =>
    intro m ps hf hr hps hfree hnd
    simp only [List.foldl_nil, List.map_nil, List.append_nil]
    rw [aupdate_self_eq hps]
  | cons i t ih =>
    intro m ps hf hr hps hfree hnd
    have hfreei := hfree i (List.mem_cons_self _ _)
    have hstep : m.addVNode node i =
        { m with
          vnodeToNode := m.vnodeToNode ++ [(cand f r node i, node)],
          vNodes := m.vNodes ++ [cand f r node i],
          nodeToVnode := aupdate m.nodeToVnode node (ps ++ [cand f r node i]) } := by
      unfold cand at hfreei ⊢
      simp only [HashRing.addVNode, hf, hr]
      rw [tryPos_of_free hfreei, hps]
      rfl
    rw [List.foldl_cons, hstep]
    rw [List.map_cons, List.nodup_cons] at hnd
    have hfree' : ∀ j ∈ t, alookup
        (m.vnodeToNode ++ [(cand f r node i, node)]) (cand f r node j) = none := by
      intro j hj
      have hj1 := hfree j (List.mem_cons_of_mem _ hj)
      rw [alookup_append_right (alookup_eq_none_iff.mp hj1), alookup_cons]
      have hne : (cand f r node i, node).1 ≠ cand f r node j := by
        intro hc
        have hc' : cand f r node i = cand f r node j := hc
        rw [hc'] at hnd
        exact hnd.1 (List.mem_map_of_mem _ hj)
      rw [if_neg hne]
      rfl
    have hrec := ih { m with
          vnodeToNode := m.vnodeToNode ++ [(cand f r node i, node)],
          vNodes := m.vNodes ++ [cand f r node i],
          nodeToVnode := aupdate m.nodeToVnode node (ps ++ [cand f r node i]) }
      (ps ++ [cand f r node i]) hf hr (alookup_aupdate_self _ _ _) hfree' hnd.2
    rw [hrec]
    simp only [List.map_cons]
    rw [aupdate_aupdate, List.append_assoc, List.append_assoc, List.append_assoc]
    rfl

/-- `addNode` on a fresh node whose first-attempt candidates are free and
pairwise distinct registers exactly those candidates. -/
theorem addNode_free (m : HashRing) (f : Hash32) (r : Nat) (node : String)
    (hf : m.HashFunc = f) (hr : m.replicas = r)
    (hnew : alookup m.nodeToVnode node = none)
    (hfree : ∀ i ∈ List.range r, alookup m.vnodeToNode (cand f r node i) = none)
    (hnd : ((List.range r).map (cand f r node)).Nodup) :
    m.addNode node =
      { m with
        vnodeToNode := m.vnodeToNode ++
          (List.range r).map (fun i => (cand f r node i, node)),
        vNodes := m.vNodes ++ (List.range r).map (cand f r node),
        nodeToVnode := m.nodeToVnode ++
          [(node, (List.range r).map (cand f r node))] } := by
  subst hf
  subst hr
  unfold HashRing.addNode
  rw [if_neg (by rw [hnew]; simp)]
  have hnmem : node ∉ akeys m.nodeToVnode := alookup_eq_none_iff.mp hnew
  have hm1 : alookup (m.nodeToVnode ++ [(node, ([] : List Nat))]) node = some [] := by
    rw [alookup_append_right hnmem, alookup_cons, if_pos rfl]
  have hrec := addVNode_fold_free m.HashFunc m.replicas node (List.range m.replicas)
    { m with nodeToVnode := m.nodeToVnode ++ [(node, [])] } [] rfl rfl hm1 hfree hnd
  rw [hrec]
  dsimp only
  rw [List.nil_append, aupdate_append_notin _ _ hnmem]

/-- The per-node fold of `add` over a duplicate-free list of fresh nodes
whose first-attempt candidates are globally collision-free registers exactly
the candidate placement of every node, independent of everything but the
node set. -/
theorem foldl_addNode_free (f : Hash32) (r : Nat) :
    ∀ (l : List String) (m : HashRing),
      m.HashFunc = f → m.replicas = r →
      (∀ n ∈ l, alookup m.nodeToVnode n = none) →
      (∀ n ∈ l, ∀ i ∈ List.range r, alookup m.vnodeToNode (cand f r n i) = none) →
      (l.flatMap (fun n => (List.range r).map (cand f r n))).Nodup →
      l.Nodup →
      l.foldl HashRing.addNode m =
        { m with
          vnodeToNode := m.vnodeToNode ++
            l.flatMap (fun n => (List.range r).map (fun i => (cand f r n i, n))),
          vNodes := m.vNodes ++ l.flatMap (fun n => (List.range r).map (cand f r n)),
          nodeToVnode := m.nodeToVnode ++
            l.map (fun n => (n, (List.range r).map (cand f r n))) } := by
  intro l
  induction l with
  | nil =>
    intro m hf hr hfresh hfree hcands hnd
    simp
  | cons n t ih =>
    intro m hf hr hfresh hfree hcands hnd
    rw [List.flatMap_cons, List.nodup_append] at hcands
    rw [List.nodup_cons] at hnd
    rw [List.foldl_cons]
    rw [addNode_free m f r n hf hr (hfresh n (List.mem_cons_self _ _))
      (hfree n (List.mem_cons_self _ _)) hcands.1]
    have hfresh' : ∀ n' ∈ t, alookup (m.nodeToVnode ++
        [(n, (List.range r).map (cand f r n))]) n' = none := by
      intro n' hn'
      have h1 := hfresh n' (List.mem_cons_of_mem _ hn')
      rw [alookup_append_right (alookup_eq_none_iff.mp h1), alookup_cons]
      have hne : (n, (List.range r).map (cand f r n)).1 ≠ n' := by
        intro he
        have he' : n = n' := he
        rw [he'] at hnd
        exact hnd.1 hn'
      rw [if_neg hne]
      rfl
    have hfree' : ∀ n' ∈ t, ∀ i ∈ List.range r,
        alookup (m.vnodeToNode ++ (List.range r).map (fun i => (cand f r n i, n)))
          (cand f r n' i) = none := by
      intro n' hn' i hi
      have h1 := hfree n' (List.mem_cons_of_mem _ hn') i hi
      rw [alookup_append_right (alookup_eq_none_iff.mp h1)]
      rw [alookup_eq_none_iff, akeys_map_pair]
      intro hmem
      exact hcands.2.2 hmem
        (List.mem_flatMap.mpr ⟨n', hn', List.mem_map_of_mem _ hi⟩)
    have hrec := ih { m with
        vnodeToNode := m.vnodeToNode ++
          (List.range r).map (fun i => (cand f r n i, n)),
        vNodes := m.vNodes ++ (List.range r).map (cand f r n),
        nodeToVnode := m.nodeToVnode ++ [(n, (List.range r).map (cand f r n))] }
      hf hr hfresh' hfree' hcands.2.1 hnd.2
    rw [hrec]
    simp only [List.flatMap_cons, List.map_cons]
    rw [List.append_assoc, List.append_assoc, List.append_assoc]
    rfl

/-- `Get` only depends on the hash function, the position slice, the size of
the position map and its lookup function. -/
theorem Get_congr {m1 m2 : HashRing} (hf : m1.HashFunc = m2.HashFunc)
    (hv : m1.vNodes = m2.vNodes) (hlen : m1.vnodeToNode.length = m2.vnodeToNode.length)
    (hlook : ∀ p, alookup m1.vnodeToNode p = alookup m2.vnodeToNode p) (key : String) :
    m1.Get key = m2.Get key := by
  unfold HashRing.Get
  rw [hlen, hv, hf]
  simp only [hlook]


/-! ## Claim C4: insertion-order independence of `Get` -/

/-- Counterexample to C4 as stated: with the constant-zero hash function
(a legal `Hash32`), two replicas and the node set consisting of `A` and `B`,
the two insertion orders produce rings that resolve the same key to
different nodes — collision resolution let the first-inserted node win the
contested position 0. -/
theorem claim_c4_counterexample :
    (["A", "B"] : List String).Perm ["B", "A"] ∧
    (((New 2 (some (fun _ => 0))).Add ["A", "B"]).1).Get "k" = Except.ok "A" ∧
    (((New 2 (some (fun _ => 0))).Add ["B", "A"]).1).Get "k" = Except.ok "B" ∧
    (((New 2 (some (fun _ => 0))).Add ["A", "B"]).1).Get "k" ≠
      (((New 2 (some (fun _ => 0))).Add ["B", "A"]).1).Get "k" :=
  ⟨List.Perm.swap "B" "A" [], by decide, by decide, by decide⟩

/-- C4 amended: with a fixed hash function, fixed replica count and a fixed
duplicate-free node set whose first-attempt candidate positions are pairwise
distinct (so collision resolution is never triggered), `Get` returns the
same node on rings built by `Add` from any two insertion orders of that set.
The counterexample shows that without the collision-freedom hypothesis the
statement is false. -/
theorem claim_c4_order_independent (f : Hash32) (r : Nat) (l₁ l₂ : List String)
    (key : String) (h2 : miniReplicas ≤ r) (hperm : l₁.Perm l₂) (hnd : l₁.Nodup)
    (hcands : (l₁.flatMap (fun n => (List.range r).map (cand f r n))).Nodup) :
    (((New r (some f)).Add l₁).1).Get key = (((New r (some f)).Add l₂).1).Get key := by
  have hlen : l₁.length = l₂.length := hperm.length_eq
  have hrepN : (New r (some f)).replicas = r := by
    simp only [New]
    have hnlt : ¬ r < miniReplicas := by omega
    rw [if_neg hnlt]
  have hfN : (New r (some f)).HashFunc = f := rfl
  have hpairs : (l₁.flatMap (fun n => (List.range r).map (fun i => (cand f r n i, n)))).Perm
      (l₂.flatMap (fun n => (List.range r).map (fun i => (cand f r n i, n)))) :=
    hperm.flatMap_right _
  have hflat : (l₁.flatMap (fun n => (List.range r).map (cand f r n))).Perm
      (l₂.flatMap (fun n => (List.range r).map (cand f r n))) :=
    hperm.flatMap_right _
  have hakeys : ∀ l : List String,
      akeys (l.flatMap (fun n => (List.range r).map (fun i => (cand f r n i, n)))) =
        l.flatMap (fun n => (List.range r).map (cand f r n)) := by
    intro l
    induction l with
    | nil => rfl
    | cons a t ih =>
      rw [List.flatMap_cons, List.flatMap_cons]
      rw [akeys, List.map_append, ← akeys, ← akeys, ih, akeys_map_pair]
  unfold HashRing.Add
  by_cases hc : (New r (some f)).vnodeToNode.length + l₁.length * (New r (some f)).replicas
      > limitVNodes
  · rw [if_pos hc, if_pos (by rw [← hlen]; exact hc)]
  · rw [if_neg hc, if_neg (by rw [← hlen]; exact hc)]
    show ((New r (some f)).add true l₁).Get key = ((New r (some f)).add true l₂).Get key
    by_cases hl1 : l₁ = []
    · have hl2 : l₂ = [] := by
        rw [hl1] at hperm
        exact hperm.symm.eq_nil
      rw [hl1, hl2]
    · have hl2 : l₂ ≠ [] := by
        intro h
        rw [h] at hperm
        exact hl1 hperm.eq_nil
      have he1 : ¬ (l₁.isEmpty = true) := by simp [List.isEmpty_iff, hl1]
      have he2 : ¬ (l₂.isEmpty = true) := by simp [List.isEmpty_iff, hl2]
      unfold HashRing.add
      rw [if_neg he1, if_neg he2, if_pos rfl, if_pos rfl]
      have hb1 := foldl_addNode_free f r l₁ (New r (some f)) hfN hrepN
        (fun n _ => rfl) (fun n _ i _ => rfl) hcands hnd
      have hb2 := foldl_addNode_free f r l₂ (New r (some f)) hfN hrepN
        (fun n _ => rfl) (fun n _ i _ => rfl)
        ((hflat.nodup_iff).mp hcands) ((hperm.nodup_iff).mp hnd)
      rw [hb1, hb2]
      apply Get_congr
      · rfl
      · dsimp only
        exact sortPos_eq_of_perm ((List.Perm.refl (New r (some f)).vNodes).append hflat)
      · dsimp only
        rw [List.length_append, List.length_append, hpairs.length_eq]
      · intro p
        dsimp only
        have hnil : (New r (some f)).vnodeToNode = [] := rfl
        rw [hnil, List.nil_append, List.nil_append]
        apply alookup_perm hpairs
        rw [hakeys l₁]
        exact hcands

/-- Witness for the amended C4 at concrete inputs: a four-value table hash
with collision-free candidates, two replicas, and the two orders of the node
set consisting of `A` and `B`. -/
theorem claim_c4_order_independent_witness :
    (((New 2 (some (fun s => if s = "0A" then 10 else if s = "1A" then 11
        else if s = "0B" then 12 else 13))).Add ["A", "B"]).1).Get "k" =
    (((New 2 (some (fun s => if s = "0A" then 10 else if s = "1A" then 11
        else if s = "0B" then 12 else 13))).Add ["B", "A"]).1).Get "k" :=
  claim_c4_order_independent _ 2 ["A", "B"] ["B", "A"] "k" (by decide)
    (List.Perm.swap "B" "A" []) (by decide) (by decide)


/-! ## Claim C5: infrastructure -/

/-- First projection of a literal pair. -/
theorem pair_fst {α β : Type} (a : α) (b : β) : (a, b).1 = a := rfl

/-- Two rings with equal fields are equal. -/
theorem ring_ext {a b : HashRing} (h1 : a.HashFunc = b.HashFunc)
    (h2 : a.replicas = b.replicas) (h3 : a.vNodes = b.vNodes)
    (h4 : a.vnodeToNode = b.vnodeToNode) (h5 : a.nodeToVnode = b.nodeToVnode) :
    a = b := by
  cases a
  cases b
  dsimp only at h1 h2 h3 h4 h5
  subst h1
  subst h2
  subst h3
  subst h4
  subst h5
  rfl

/-- Removing no nodes is the identity. -/
theorem remove_nil (m : HashRing) (b : Bool) : m.remove b [] = m := rfl

/-- Adding no nodes is the identity. -/
theorem add_nil (m : HashRing) (b : Bool) : m.add b [] = m := rfl

/-- When the capacity check passes, `Add` succeeds and behaves as `add true`. -/
theorem Add_ok {m : HashRing} {nodes : List String}
    (h : m.vnodeToNode.length + nodes.length * m.replicas ≤ limitVNodes) :
    m.Add nodes = (m.add true nodes, none) := by
  unfold HashRing.Add
  have h' : ¬ m.vnodeToNode.length + nodes.length * m.replicas > limitVNodes := by omega
  rw [if_neg h']

/-- `Add` with no nodes never changes the state, whether or not it errors. -/
theorem Add_nil_fst (m : HashRing) : (m.Add []).1 = m := by
  unfold HashRing.Add
  by_cases hc : m.vnodeToNode.length + ([] : List String).length * m.replicas > limitVNodes
  · rw [if_pos hc]
  · rw [if_neg hc]
    exact add_nil m true

/-- A filter and its complementary filter partition the list's length. -/
theorem length_filter_add_not {α : Type} (p : α → Bool) (l : List α) :
    (l.filter p).length + (l.filter (fun x => !(p x))).length = l.length := by
  induction l with
  | nil => rfl
  | cons a t ih =>
    simp only [List.filter_cons]
    cases hpa : p a with
    | false =>
      have hff : ¬ (false = true) := by simp
      have htt : (!false) = true := rfl
      rw [if_neg hff, if_pos htt]
      simp only [List.length_cons]
      omega
    | true =>
      have hnt : ¬ ((!true) = true) := by simp
      rw [if_pos rfl, if_neg hnt]
      simp only [List.length_cons]
      omega

/-- Membership in the `resetNodes` accumulator loop. -/
theorem mem_dedupKeepGo (l : List String) :
    ∀ (acc : List String) (a : String), a ∈ dedupKeepGo acc l ↔ a ∈ acc ∨ a ∈ l := by
  induction l with
  | nil =>
    intro acc a
    unfold dedupKeepGo
    simp
  | cons n t ih =>
    intro acc a
    unfold dedupKeepGo
    by_cases hn : n ∈ acc
    · rw [if_pos hn, ih]
      constructor
      · rintro (h | h)
        · exact Or.inl h
        · exact Or.inr (List.mem_cons_of_mem n h)
      · rintro (h | h)
        · exact Or.inl h
        · rcases List.mem_cons.mp h with rfl | h
          · exact Or.inl hn
          · exact Or.inr h
    · rw [if_neg hn, ih]
      simp only [List.mem_append, List.mem_cons, List.mem_singleton]
      tauto

/-- The deduplicated target set has the same members as the argument list. -/
theorem mem_dedupKeep (l : List String) (a : String) : a ∈ dedupKeep l ↔ a ∈ l := by
  unfold dedupKeep
  rw [mem_dedupKeepGo]
  simp

/-- Length bound for the `resetNodes` accumulator loop. -/
theorem dedupKeepGo_length (l : List String) :
    ∀ acc : List String, (dedupKeepGo acc l).length ≤ acc.length + l.length := by
  induction l with
  | nil =>
    intro acc
    unfold dedupKeepGo
    simp
  | cons n t ih =>
    intro acc
    unfold dedupKeepGo
    by_cases hn : n ∈ acc
    · rw [if_pos hn]
      have := ih acc
      simp only [List.length_cons]
      omega
    · rw [if_neg hn]
      have := ih (acc ++ [n])
      simp only [List.length_append, List.length_cons, List.length_singleton,
        List.length_nil] at this ⊢
      omega

/-- Deduplication does not lengthen a list. -/
theorem dedupKeep_length_le (l : List String) : (dedupKeep l).length ≤ l.length := by
  have := dedupKeepGo_length l []
  unfold dedupKeep
  simpa using this

/-- Effect of one `removeNode` on the membership map. -/
theorem removeNode_alookup (m : HashRing) (a q : String) :
    alookup (m.removeNode a).nodeToVnode q =
      if q = a then none else alookup m.nodeToVnode q := by
  unfold HashRing.removeNode
  cases h : alookup m.nodeToVnode a with
  | none =>
    by_cases hq : q = a
    · rw [if_pos hq, hq]
      exact h
    · rw [if_neg hq]
  | some ps =>
    by_cases hq : q = a
    · rw [if_pos hq, hq]
      exact alookup_aerase_self m.nodeToVnode a
    · rw [if_neg hq]
      exact alookup_aerase_ne m.nodeToVnode hq

/-- Effect of the `remove` fold on the membership map. -/
theorem foldl_removeNode_alookup (l : List String) :
    ∀ (m : HashRing) (q : String),
      alookup ((l.foldl HashRing.removeNode m).nodeToVnode) q =
        if q ∈ l then none else alookup m.nodeToVnode q := by
  induction l with
  | nil =>
    intro m q
    rw [if_neg (List.not_mem_nil q)]
    rfl
  | cons a t ih =>
    intro m q
    have h1 : (a :: t).foldl HashRing.removeNode m = t.foldl HashRing.removeNode (m.removeNode a) := rfl
    rw [h1, ih, removeNode_alookup]
    by_cases ht : q ∈ t
    · rw [if_pos ht, if_pos (List.mem_cons_of_mem a ht)]
    · rw [if_neg ht]
      by_cases ha : q = a
      · rw [if_pos ha, if_pos (List.mem_cons.mpr (Or.inl ha))]
      · have hn : ¬ q ∈ a :: t := by simp [List.mem_cons, ha, ht]
        rw [if_neg ha, if_neg hn]

/-- Effect of `remove` on the membership map: exactly the listed nodes are
unregistered. -/
theorem remove_alookup (m : HashRing) (b : Bool) (l : List String) (q : String) :
    alookup (m.remove b l).nodeToVnode q =
      if q ∈ l then none else alookup m.nodeToVnode q := by
  unfold HashRing.remove
  by_cases he : l.isEmpty = true
  · rw [if_pos he]
    have hl : l = [] := List.isEmpty_iff.mp he
    subst hl
    rw [if_neg (List.not_mem_nil q)]
  · rw [if_neg he]
    have hrb : (((l.foldl HashRing.removeNode m).rebuildVNodeSlice b).nodeToVnode) =
        (l.foldl HashRing.removeNode m).nodeToVnode := rfl
    rw [hrb, foldl_removeNode_alookup]


/-- Under the map invariants, the position map holds at most `replicas`
entries per registered node. -/
theorem vnode_count_le {m : HashRing} (hm : WFmaps m) :
    m.vnodeToNode.length ≤ (akeys m.nodeToVnode).length * m.replicas := by
  obtain ⟨hknd, hvnd, hto, hfrom, hlen⟩ := hm
  have hsub : akeys m.vnodeToNode ⊆
      (akeys m.nodeToVnode).flatMap (fun n => (alookup m.nodeToVnode n).getD []) := by
    intro p hp
    simp only [akeys, List.mem_map] at hp
    obtain ⟨e, he, hpe⟩ := hp
    have h1 := hfrom e he
    have h2 : e.2 ∈ akeys m.nodeToVnode := by
      by_contra hc
      rw [alookup_eq_none_iff.mpr hc] at h1
      simp at h1
    subst hpe
    exact List.mem_flatMap.mpr ⟨e.2, h2, h1⟩
  have hl1 : (akeys m.vnodeToNode).length ≤
      ((akeys m.nodeToVnode).flatMap (fun n => (alookup m.nodeToVnode n).getD [])).length :=
    (hvnd.subperm hsub).length_le
  have hl2 := List.length_flatMap (akeys m.nodeToVnode)
    (fun n => (alookup m.nodeToVnode n).getD [])
  have hbound : ∀ x ∈ List.map
      (List.length ∘ fun n => (alookup m.nodeToVnode n).getD []) (akeys m.nodeToVnode),
      x ≤ m.replicas := by
    intro x hx
    simp only [List.mem_map] at hx
    obtain ⟨n, hn, hxe⟩ := hx
    subst hxe
    show ((alookup m.nodeToVnode n).getD []).length ≤ m.replicas
    cases ho : alookup m.nodeToVnode n with
    | none => simp
    | some ps =>
      have := hlen (n, ps) (alookup_mem ho)
      simpa using this
  have hsum := List.sum_le_card_nsmul _ _ hbound
  rw [List.length_map] at hsum
  have hmv : (akeys m.vnodeToNode).length = m.vnodeToNode.length := by
    simp [akeys]
  calc m.vnodeToNode.length
      = (akeys m.vnodeToNode).length := hmv.symm
    _ ≤ ((akeys m.nodeToVnode).flatMap (fun n => (alookup m.nodeToVnode n).getD [])).length := hl1
    _ = (List.map (List.length ∘ fun n => (alookup m.nodeToVnode n).getD [])
          (akeys m.nodeToVnode)).sum := hl2
    _ ≤ (akeys m.nodeToVnode).length • m.replicas := hsum
    _ = (akeys m.nodeToVnode).length * m.replicas := smul_eq_mul _

/-- A slice satisfying the slice invariant is a permutation of the position
map's key list. -/
theorem wfvn_perm {m : HashRing} (hvn : WFvn m) :
    m.vNodes.Perm (akeys m.vnodeToNode) := by
  obtain ⟨h1, h2, h3, h4⟩ := hvn
  have hsp : m.vNodes.Subperm (akeys m.vnodeToNode) := h4.subperm (fun x hx => h1 x hx)
  obtain ⟨u, hup, husl⟩ := hsp
  have hak : (akeys m.vnodeToNode).length = m.vnodeToNode.length := by
    simp [akeys]
  have hul : u.length = (akeys m.vnodeToNode).length := by
    have := hup.length_eq
    omega
  have hue : u = akeys m.vnodeToNode := husl.eq_of_length hul
  rw [← hue]
  exact hup.symm

/-- One `addVNode` step preserves agreement of the hash function, replica
count and both maps between two rings that differ only in the slice. -/
theorem addVNode_core {a b : HashRing}
    (hf : a.HashFunc = b.HashFunc) (hr : a.replicas = b.replicas)
    (hv : a.vnodeToNode = b.vnodeToNode) (hn : a.nodeToVnode = b.nodeToVnode)
    (n : String) (i : Nat) :
    (a.addVNode n i).HashFunc = (b.addVNode n i).HashFunc ∧
    (a.addVNode n i).replicas = (b.addVNode n i).replicas ∧
    (a.addVNode n i).vnodeToNode = (b.addVNode n i).vnodeToNode ∧
    (a.addVNode n i).nodeToVnode = (b.addVNode n i).nodeToVnode := by
  simp only [HashRing.addVNode]
  rw [hf, hr, hv, hn]
  cases tryPos b.vnodeToNode (segmentLen b.replicas * i % U32) (segmentLen b.replicas)
      (b.HashFunc (combKey n i)) with
  | none => exact ⟨hf, hr, hv, hn⟩
  | some p => exact ⟨rfl, rfl, rfl, rfl⟩

/-- The inner `addVNode` fold preserves the same agreement. -/
theorem foldl_addVNode_core (n : String) (us : List Nat) :
    ∀ {a b : HashRing},
      a.HashFunc = b.HashFunc → a.replicas = b.replicas →
      a.vnodeToNode = b.vnodeToNode → a.nodeToVnode = b.nodeToVnode →
      (us.foldl (fun acc ui => acc.addVNode n ui) a).HashFunc =
        (us.foldl (fun acc ui => acc.addVNode n ui) b).HashFunc ∧
      (us.foldl (fun acc ui => acc.addVNode n ui) a).replicas =
        (us.foldl (fun acc ui => acc.addVNode n ui) b).replicas ∧
      (us.foldl (fun acc ui => acc.addVNode n ui) a).vnodeToNode =
        (us.foldl (fun acc ui => acc.addVNode n ui) b).vnodeToNode ∧
      (us.foldl (fun acc ui => acc.addVNode n ui) a).nodeToVnode =
        (us.foldl (fun acc ui => acc.addVNode n ui) b).nodeToVnode := by
  induction us with
  | nil => intro a b hf hr hv hn; exact ⟨hf, hr, hv, hn⟩
  | cons u t ih =>
    intro a b hf hr hv hn
    obtain ⟨h1, h2, h3, h4⟩ := addVNode_core hf hr hv hn n u
    exact ih h1 h2 h3 h4

/-- One `addNode` step preserves the same agreement. -/
theorem addNode_core {a b : HashRing}
    (hf : a.HashFunc = b.HashFunc) (hr : a.replicas = b.replicas)
    (hv : a.vnodeToNode = b.vnodeToNode) (hn : a.nodeToVnode = b.nodeToVnode)
    (n : String) :
    (a.addNode n).HashFunc = (b.addNode n).HashFunc ∧
    (a.addNode n).replicas = (b.addNode n).replicas ∧
    (a.addNode n).vnodeToNode = (b.addNode n).vnodeToNode ∧
    (a.addNode n).nodeToVnode = (b.addNode n).nodeToVnode := by
  simp only [HashRing.addNode]
  rw [hr, hn]
  by_cases hm : (alookup b.nodeToVnode n).isSome = true
  · rw [if_pos hm, if_pos hm]
    exact ⟨hf, hr, hv, hn⟩
  · rw [if_neg hm, if_neg hm]
    exact foldl_addVNode_core n (List.range b.replicas) hf rfl hv rfl

/-- The `add` fold preserves the same agreement. -/
theorem foldl_addNode_core (l : List String) :
    ∀ {a b : HashRing},
      a.HashFunc = b.HashFunc → a.replicas = b.replicas →
      a.vnodeToNode = b.vnodeToNode → a.nodeToVnode = b.nodeToVnode →
      (l.foldl HashRing.addNode a).HashFunc = (l.foldl HashRing.addNode b).HashFunc ∧
      (l.foldl HashRing.addNode a).replicas = (l.foldl HashRing.addNode b).replicas ∧
      (l.foldl HashRing.addNode a).vnodeToNode = (l.foldl HashRing.addNode b).vnodeToNode ∧
      (l.foldl HashRing.addNode a).nodeToVnode = (l.foldl HashRing.addNode b).nodeToVnode := by
  induction l with
  | nil => intro a b hf hr hv hn; exact ⟨hf, hr, hv, hn⟩
  | cons x t ih =>
    intro a b hf hr hv hn
    obtain ⟨h1, h2, h3, h4⟩ := addNode_core hf hr hv hn x
    exact ih h1 h2 h3 h4

/-- On a sorted ring, the sorting `remove` is the non-sorting `remove`
followed by a sort of the slice. -/
theorem remove_true_eq {m : HashRing} (hs : m.vNodes.Sorted (· < ·)) (l : List String) :
    m.remove true l = { m.remove false l with vNodes := sortPos (m.remove false l).vNodes } := by
  unfold HashRing.remove
  by_cases he : l.isEmpty = true
  · rw [if_pos he, if_pos he]
    rw [sortPos_eq_self (sorted_lt_le hs)]
  · rw [if_neg he, if_neg he]
    unfold HashRing.rebuildVNodeSlice
    have hfb : ¬ (false = true) := by simp
    rw [if_pos rfl, if_neg hfb]

/-- Core of the Reset-refinement: starting from the unsorted intermediate
state, running the non-sorting `add` and then sorting coincides with the
public `Add` on the sorted intermediate state. -/
theorem reset_vs_removeAdd {m1 : HashRing} (hm1 : WF0 m1) (adds : List String)
    (hane : adds ≠ [])
    (hcap : m1.vnodeToNode.length + adds.length * m1.replicas ≤ limitVNodes) :
    { m1.add false adds with vNodes := sortPos (m1.add false adds).vNodes } =
      (({ m1 with vNodes := sortPos m1.vNodes } : HashRing).Add adds).1 := by
  have hane' : ¬ (adds.isEmpty = true) := by
    rw [List.isEmpty_iff]
    exact hane
  have hcap' : ({ m1 with vNodes := sortPos m1.vNodes } : HashRing).vnodeToNode.length +
      adds.length * ({ m1 with vNodes := sortPos m1.vNodes } : HashRing).replicas ≤
      limitVNodes := hcap
  rw [Add_ok hcap', pair_fst]
  have hL : m1.add false adds = adds.foldl HashRing.addNode m1 := by
    unfold HashRing.add
    have hfb : ¬ (false = true) := by simp
    rw [if_neg hane', if_neg hfb]
  have hRR : ({ m1 with vNodes := sortPos m1.vNodes } : HashRing).add true adds =
      { adds.foldl HashRing.addNode ({ m1 with vNodes := sortPos m1.vNodes } : HashRing) with
        vNodes := sortPos (adds.foldl HashRing.addNode
          ({ m1 with vNodes := sortPos m1.vNodes } : HashRing)).vNodes } := by
    unfold HashRing.add
    rw [if_neg hane', if_pos rfl]
  rw [hL, hRR]
  obtain ⟨hscf, hscr, hscv, hscn⟩ :=
    foldl_addNode_core adds (a := m1) (b := { m1 with vNodes := sortPos m1.vNodes })
      rfl rfl rfl rfl
  have hwfF1 := (foldl_addNode_wf adds m1 hm1).1
  have hwfF2 := (foldl_addNode_wf adds ({ m1 with vNodes := sortPos m1.vNodes } : HashRing)
    (wf0_sortPos hm1).toWF0).1
  have hp1 := wfvn_perm hwfF1.2.2
  have hp2 := wfvn_perm hwfF2.2.2
  have hp2' : (adds.foldl HashRing.addNode
      ({ m1 with vNodes := sortPos m1.vNodes } : HashRing)).vNodes.Perm
      (akeys (adds.foldl HashRing.addNode m1).vnodeToNode) := by
    rw [hscv]
    exact hp2
  have hvne : sortPos (adds.foldl HashRing.addNode m1).vNodes =
      sortPos (adds.foldl HashRing.addNode
        ({ m1 with vNodes := sortPos m1.vNodes } : HashRing)).vNodes :=
    sortPos_eq_of_perm (hp1.trans hp2'.symm)
  exact ring_ext hscf hscr hvne hscv hscn


/-! ## Claim C5: Reset versus Remove-then-Add -/

/-- A small concrete ring for the C5 counterexample and witness: two
replicas, constant-zero hash, single member `A`. -/
def ringC5 : HashRing := ((New 2 (some (fun _ => 0))).Add ["A"]).1

/-- Counterexample to C5 as stated: at the capacity edge the two approaches
diverge.  Resetting the one-node ring to the target set given as `2^29 + 1`
copies of `B` fails the capacity check (which counts duplicates in the raw
argument list) and keeps membership at `A`, while the claimed equivalent —
Remove the nodes not in the target set, then Add the distinct missing target
node — succeeds and ends with membership `B`. -/
theorem claim_c5_counterexample :
    (ringC5.Reset (List.replicate (2 ^ 29 + 1) "B")).2 = some RingErr.ringFull ∧
    (ringC5.Reset (List.replicate (2 ^ 29 + 1) "B")).1 = ringC5 ∧
    akeys ((ringC5.Remove ["A"]).Add ["B"]).1.nodeToVnode = ["B"] ∧
    (ringC5.Reset (List.replicate (2 ^ 29 + 1) "B")).1.nodeToVnode ≠
      ((ringC5.Remove ["A"]).Add ["B"]).1.nodeToVnode := by
  have hcond : (List.replicate (2 ^ 29 + 1) "B").length * ringC5.replicas > limitVNodes := by
    rw [List.length_replicate]
    have hr2 : ringC5.replicas = 2 := rfl
    rw [hr2]
    norm_num [limitVNodes]
  have hfst : (ringC5.Reset (List.replicate (2 ^ 29 + 1) "B")).1 = ringC5 := by
    simp only [HashRing.Reset]
    rw [if_pos hcond]
  refine ⟨?_, hfst, by decide, ?_⟩
  · simp only [HashRing.Reset]
    rw [if_pos hcond]
  · rw [hfst]
    decide

/-- C5 amended: on a well-formed ring, whenever the target list is small
enough that `Reset`'s own capacity check passes (list length times replicas
within the ceiling), `Reset(S)` succeeds and its end state equals that of
`Remove` of the current members absent from `S` followed by `Add` of the
members of `S` absent from the ring after the removal.  The counterexample
shows the equivalence fails near the capacity ceiling, where `Reset` can
reject a target set that the Remove-then-Add sequence handles. -/
theorem claim_c5_amended (m : HashRing) (ns : List String) (hwf : WF m)
    (hcap : ns.length * m.replicas ≤ limitVNodes) :
    (m.Reset ns).2 = none ∧
    (m.Reset ns).1 =
      ((m.Remove (m.delNodes ns)).Add ((m.Remove (m.delNodes ns)).addNodesOf ns)).1 := by
  obtain ⟨hwf0, hsorted⟩ := hwf
  have hrc : ¬ ns.length * m.replicas > limitVNodes := by omega
  have hA : m.Remove (m.delNodes ns) =
      { m.remove false (m.delNodes ns) with
        vNodes := sortPos (m.remove false (m.delNodes ns)).vNodes } :=
    remove_true_eq hsorted (m.delNodes ns)
  have hadds : (m.Remove (m.delNodes ns)).addNodesOf ns =
      (m.remove false (m.delNodes ns)).addNodesOf ns := by
    rw [hA]
    rfl
  constructor
  · simp only [HashRing.Reset]
    rw [if_neg hrc]
  · simp only [HashRing.Reset]
    rw [if_neg hrc, pair_fst, hadds, hA]
    by_cases hde : ((m.delNodes ns).isEmpty &&
        ((m.remove false (m.delNodes ns)).addNodesOf ns).isEmpty) = true
    · rw [if_pos hde]
      rw [Bool.and_eq_true] at hde
      have hdel : m.delNodes ns = [] := List.isEmpty_iff.mp hde.1
      have hanil : (m.remove false (m.delNodes ns)).addNodesOf ns = [] :=
        List.isEmpty_iff.mp hde.2
      rw [hanil, hdel, remove_nil, add_nil, Add_nil_fst]
      rw [sortPos_eq_self (sorted_lt_le hsorted)]
    · rw [if_neg hde]
      by_cases ha : ((m.remove false (m.delNodes ns)).addNodesOf ns).isEmpty = true
      · have hanil : (m.remove false (m.delNodes ns)).addNodesOf ns = [] :=
          List.isEmpty_iff.mp ha
        rw [hanil, add_nil, Add_nil_fst]
      · rw [List.isEmpty_iff] at ha
        have hm1wf0 : WF0 (m.remove false (m.delNodes ns)) :=
          (remove_wf0 false (m.delNodes ns) hwf0).1
        have hrepX : (m.remove false (m.delNodes ns)).replicas = m.replicas :=
          (remove_wf0 false (m.delNodes ns) hwf0).2.1
        have hmapsX : WFmaps (m.remove false (m.delNodes ns)) := hm1wf0.2.1
        have hc1 := vnode_count_le hmapsX
        have hKnd : (akeys (m.remove false (m.delNodes ns)).nodeToVnode).Nodup := hmapsX.1
        have hKsub : akeys (m.remove false (m.delNodes ns)).nodeToVnode ⊆
            (dedupKeep ns).filter
              (fun n => !((alookup (m.remove false (m.delNodes ns)).nodeToVnode n).isNone)) := by
          intro n hn
          have hsome : (alookup (m.remove false (m.delNodes ns)).nodeToVnode n).isSome = true :=
            alookup_isSome_iff.mpr hn
          have hra := remove_alookup m false (m.delNodes ns) n
          by_cases hdn : n ∈ m.delNodes ns
          · rw [if_pos hdn] at hra
            rw [hra] at hsome
            simp at hsome
          · rw [if_neg hdn] at hra
            have hmm : n ∈ akeys m.nodeToVnode := by
              rw [← alookup_isSome_iff, ← hra]
              exact hsome
            have hns : n ∈ ns := by
              by_contra hnot
              exact hdn (List.mem_filter.mpr ⟨hmm, by simp [hnot]⟩)
            refine List.mem_filter.mpr ⟨(mem_dedupKeep ns n).mpr hns, ?_⟩
            cases ho : alookup (m.remove false (m.delNodes ns)).nodeToVnode n with
            | none =>
              rw [ho] at hsome
              simp at hsome
            | some v => simp
        have hKle := (hKnd.subperm hKsub).length_le
        have hsplit : ((dedupKeep ns).filter
              (fun n => (alookup (m.remove false (m.delNodes ns)).nodeToVnode n).isNone)).length +
            ((dedupKeep ns).filter
              (fun n => !((alookup (m.remove false (m.delNodes ns)).nodeToVnode n).isNone))).length =
            (dedupKeep ns).length :=
          length_filter_add_not _ _
        have hdk := dedupKeep_length_le ns
        have hALen : ((m.remove false (m.delNodes ns)).addNodesOf ns).length =
            ((dedupKeep ns).filter
              (fun n => (alookup (m.remove false (m.delNodes ns)).nodeToVnode n).isNone)).length :=
          rfl
        have hcount : (m.remove false (m.delNodes ns)).vnodeToNode.length +
            ((m.remove false (m.delNodes ns)).addNodesOf ns).length *
              (m.remove false (m.delNodes ns)).replicas ≤ limitVNodes := by
          calc (m.remove false (m.delNodes ns)).vnodeToNode.length +
              ((m.remove false (m.delNodes ns)).addNodesOf ns).length *
                (m.remove false (m.delNodes ns)).replicas
              ≤ (akeys (m.remove false (m.delNodes ns)).nodeToVnode).length *
                  (m.remove false (m.delNodes ns)).replicas +
                ((m.remove false (m.delNodes ns)).addNodesOf ns).length *
                  (m.remove false (m.delNodes ns)).replicas :=
                Nat.add_le_add_right hc1 _
            _ = ((akeys (m.remove false (m.delNodes ns)).nodeToVnode).length +
                  ((m.remove false (m.delNodes ns)).addNodesOf ns).length) *
                  (m.remove false (m.delNodes ns)).replicas :=
                (Nat.add_mul _ _ _).symm
            _ ≤ ns.length * (m.remove false (m.delNodes ns)).replicas :=
                Nat.mul_le_mul (by omega) (le_refl _)
            _ = ns.length * m.replicas := by rw [hrepX]
            _ ≤ limitVNodes := hcap
        exact reset_vs_removeAdd hm1wf0 _ ha hcount

/-- Witness for the amended C5 at concrete inputs: the one-node ring reset
to the target set consisting of `B` equals the Remove-then-Add result. -/
theorem claim_c5_amended_witness :
    (ringC5.Reset ["B"]).2 = none ∧
    (ringC5.Reset ["B"]).1 =
      ((ringC5.Remove (ringC5.delNodes ["B"])).Add
        ((ringC5.Remove (ringC5.delNodes ["B"])).addNodesOf ["B"])).1 :=
  claim_c5_amended ringC5 ["B"] (by unfold WF WF0 WFr WFmaps WFvn; decide) (by decide)

end ConsistentHash
